import Mathlib

/-!
# streamy: chunk writer, chunk reader and chunk fan-out

A shallow embedding of `chunkwriter.go`, `chunkreaderchannel.go` and the
coordinating parts of `cmd/streamy-api/main.go`.

Modelling conventions.

* Storage is a map from path to file contents; an `*os.File` is a path, an
  offset and a closed flag, and writes go straight through to the storage.
  The operating system calls themselves succeed (the disk is not full, the
  directory is writable); what can still fail is what the Go code itself can
  cause: using a closed or nil file, opening a path that does not exist,
  slicing out of range, sending on or closing a closed channel.
* A Go run-time panic is `Except.error`; a returned `error` is an `Option Err`
  next to the returned count, as in Go's `(int, error)`.
* Go's `int` is 64 bits wide and every length that occurs is the length of a
  slice held in memory, so the sums and differences in `Write` are taken in
  `Int` and do not wrap.
* The mutex of `ChunkWriter` guards single field accesses; the embedding is
  sequential, so it is omitted.
-/

namespace Streamy

abbrev Byte := UInt8

/-- Storage: the contents of every existing file, by path. -/
abbrev FS := String → Option (List Byte)

/-- Run-time panics the embedded code can raise. -/
inductive Panic where
  | sliceBounds
  | sendOnClosedChannel
  | closeOfClosedChannel
  | closeOfNilChannel
  deriving DecidableEq, Repr

/-- Values of Go's `error` that the embedded code can return. -/
inductive Err where
  | eof
  | errClosed
  | errInvalid
  | notExist (path : String)
  | closeCurFile
  | closeCurChunkFile
  deriving DecidableEq, Repr

deriving instance DecidableEq for Except

/-- A send-only channel as its owner sees it: everything sent so far, in order,
and whether it has been closed.  Receivers drain it, so a send does not block. -/
structure Chan where
  sent : List String
  closed : Bool
  deriving DecidableEq, Repr

/-- An `*os.File`. -/
structure OsFile where
  path : String
  off : Nat
  closed : Bool
  deriving DecidableEq, Repr

/-- The storage with the file at `path` replaced by `data`. -/
def FS.set (fs : FS) (path : String) (data : List Byte) : FS :=
  fun p => if p = path then some data else fs p

/-- `os.OpenFile(path, os.O_CREATE|os.O_RDWR, 0755)`: creates the file when it
does not exist, keeps its contents when it does (no `O_TRUNC`), offset 0. -/
def osOpenFile (fs : FS) (path : String) : FS × OsFile :=
  (fs.set path ((fs path).getD []), { path := path, off := 0, closed := false })

/-- `(*os.File).Write`: overwrites from the current offset and advances it. -/
def OsFile.Write (f : OsFile) (fs : FS) (b : List Byte) : (Nat × Option Err) × OsFile × FS :=
  if f.closed then ((0, some Err.errClosed), f, fs)
  else
    let old := (fs f.path).getD []
    ((b.length, none), { f with off := f.off + b.length },
      fs.set f.path (old.take f.off ++ b ++ old.drop (f.off + b.length)))

/-- `(*os.File).Close`. -/
def OsFile.Close (f : OsFile) : Option Err × OsFile :=
  if f.closed then (some Err.errClosed, f) else (none, { f with closed := true })

/-- Go's `%03d` of a non-negative integer: decimal, zero-padded to width 3. -/
def fmt03d (n : Nat) : String :=
  let s := Nat.toDigits 10 n
  String.mk (List.replicate (3 - s.length) '0' ++ s)

/-- `fmt.Sprintf("%s_%03d.bin", pfx, n)`. -/
def chunkPathOf (pfx : String) (n : Nat) : String :=
  pfx ++ "_" ++ fmt03d n ++ ".bin"

/-! ## chunkwriter.go -/

structure ChunkWriter where
  chunkPathPrefix : String
  maxChunkSize : Int
  chunkPaths : List String
  chunksWritten : Option Chan
  curChunkPath : String
  curChunkSize : Int
  curChunkFile : Option OsFile
  deriving DecidableEq, Repr, Inhabited

/-- `chunkDone`: sends the path on `chunksWritten` unless that is nil, then
appends it to `chunkPaths`. -/
def ChunkWriter.chunkDone (sw : ChunkWriter) (chunkPath : String) : Except Panic ChunkWriter :=
  match sw.chunksWritten with
  | some ch =>
    if ch.closed then Except.error Panic.sendOnClosedChannel
    else Except.ok { sw with
      chunksWritten := some { ch with sent := ch.sent ++ [chunkPath] }
      chunkPaths := sw.chunkPaths ++ [chunkPath] }
  | none => Except.ok { sw with chunkPaths := sw.chunkPaths ++ [chunkPath] }

/-- `openNextChunk`: closes and reports the current chunk if there is one, then
opens the chunk named after the number of completed chunks. -/
def ChunkWriter.openNextChunk (sw : ChunkWriter) (fs : FS) :
    Except Panic (Option Err × ChunkWriter × FS) :=
  let closed : Except Panic (Option Err × ChunkWriter) :=
    match sw.curChunkFile with
    | some f =>
      match f.Close with
      | (some _, _) => Except.ok (some Err.closeCurFile, sw)
      | (none, f1) =>
        match ({ sw with curChunkFile := some f1 }).chunkDone sw.curChunkPath with
        | Except.error p => Except.error p
        | Except.ok sw1 => Except.ok (none, sw1)
    | none => Except.ok (none, sw)
  match closed with
  | Except.error p => Except.error p
  | Except.ok (some e, sw1) => Except.ok (some e, sw1, fs)
  | Except.ok (none, sw1) =>
    let path := chunkPathOf sw1.chunkPathPrefix sw1.chunkPaths.length
    let (fs1, f) := osOpenFile fs path
    Except.ok (none, { sw1 with curChunkPath := path, curChunkFile := some f, curChunkSize := 0 }, fs1)

/-- `NewChunkWriter`; opening cannot fail on a fresh writer, so a writer is
always returned. -/
def NewChunkWriter (filePathPrefix : String) (maxFileSize : Int) (chunksWritten : Option Chan)
    (fs : FS) : Except Panic (Option Err × ChunkWriter × FS) :=
  ChunkWriter.openNextChunk
    { chunkPathPrefix := filePathPrefix, maxChunkSize := maxFileSize, chunkPaths := [],
      chunksWritten := chunksWritten, curChunkPath := "", curChunkSize := 0,
      curChunkFile := none } fs

/-- The method call `sw.curChunkFile.Write(b)`; on a nil file Go returns
`os.ErrInvalid`. -/
def ChunkWriter.fileWrite (sw : ChunkWriter) (fs : FS) (b : List Byte) :
    (Nat × Option Err) × ChunkWriter × FS :=
  match sw.curChunkFile with
  | none => ((0, some Err.errInvalid), sw, fs)
  | some f =>
    let (r, f1, fs1) := f.Write fs b
    (r, { sw with curChunkFile := some f1 }, fs1)

/-- `Write`.  `buf[:remainingBytes]` panics when `remainingBytes` is negative
or exceeds the capacity of `buf` (taken to be its length). -/
def ChunkWriter.Write (sw : ChunkWriter) (fs : FS) (buf : List Byte) :
    Except Panic ((Nat × Option Err) × ChunkWriter × FS) :=
  if sw.curChunkSize + (buf.length : Int) > sw.maxChunkSize then
    let remainingBytes : Int := sw.maxChunkSize - sw.curChunkSize
    if remainingBytes < 0 ∨ (buf.length : Int) < remainingBytes then
      Except.error Panic.sliceBounds
    else
      match sw.fileWrite fs (buf.take remainingBytes.toNat) with
      | ((_, some e), sw1, fs1) => Except.ok ((0, some e), sw1, fs1)
      | ((n1, none), sw1, fs1) =>
        let buf1 := buf.drop remainingBytes.toNat
        match sw1.openNextChunk fs1 with
        | Except.error p => Except.error p
        | Except.ok (some e, sw2, fs2) => Except.ok ((0, some e), sw2, fs2)
        | Except.ok (none, sw2, fs2) =>
          let ((n2, err), sw3, fs3) := sw2.fileWrite fs2 buf1
          let writeTotal := n1 + n2
          Except.ok ((writeTotal, err),
            { sw3 with curChunkSize := sw3.curChunkSize + (writeTotal : Int) }, fs3)
  else
    let ((n2, err), sw3, fs3) := sw.fileWrite fs buf
    let writeTotal := 0 + n2
    Except.ok ((writeTotal, err),
      { sw3 with curChunkSize := sw3.curChunkSize + (writeTotal : Int) }, fs3)

/-- The deferred `close(sw.chunksWritten)` of `Close`. -/
def ChunkWriter.closeChunksWritten (sw : ChunkWriter) : Except Panic ChunkWriter :=
  match sw.chunksWritten with
  | none => Except.error Panic.closeOfNilChannel
  | some ch =>
    if ch.closed then Except.error Panic.closeOfClosedChannel
    else Except.ok { sw with chunksWritten := some { ch with closed := true } }

/-- `Close`: closes the current file, reports its chunk, and (deferred) closes
the event channel. -/
def ChunkWriter.Close (sw : ChunkWriter) : Except Panic (Option Err × ChunkWriter) :=
  let body : Except Panic (Option Err × ChunkWriter) :=
    match sw.curChunkFile with
    | none => Except.ok (some Err.errInvalid, sw)
    | some f =>
      match f.Close with
      | (some e, _) => Except.ok (some e, sw)
      | (none, f1) =>
        match ({ sw with curChunkFile := some f1 }).chunkDone sw.curChunkPath with
        | Except.error p => Except.error p
        | Except.ok sw1 => Except.ok (none, sw1)
  match body with
  | Except.error p => Except.error p
  | Except.ok (e, sw1) =>
    match sw1.closeChunksWritten with
    | Except.error p => Except.error p
    | Except.ok sw2 => Except.ok (e, sw2)

/-- `FilePaths`. -/
def ChunkWriter.FilePaths (sw : ChunkWriter) : List String := sw.chunkPaths

/-! ## chunkreaderchannel.go -/

/-- A receive-only channel as its reader sees it: the values still to be
received and whether the sender has closed it. -/
structure RecvChan where
  pending : List String
  closed : Bool
  deriving DecidableEq, Repr

/-- Why a call did not return: it waits on a channel, or the fuel of the
embedding ran out. -/
inductive Stop where
  | blocked
  | outOfFuel
  deriving DecidableEq, Repr

/-- `v, ok := <-ch`; `none` when the receive would wait. -/
def RecvChan.recv (ch : RecvChan) : Option (Option String × RecvChan) :=
  match ch.pending with
  | v :: rest => some (some v, { ch with pending := rest })
  | [] => if ch.closed then some (none, ch) else none

/-- `os.Open(path)`. -/
def osOpen (fs : FS) (path : String) : Except Err OsFile :=
  match fs path with
  | none => Except.error (Err.notExist path)
  | some _ => Except.ok { path := path, off := 0, closed := false }

/-- `(*os.File).Read` into a slice of length `len`: the bytes read, in order. -/
def OsFile.Read (f : OsFile) (fs : FS) (len : Nat) : (List Byte × Option Err) × OsFile :=
  if f.closed then (([], some Err.errClosed), f)
  else if len = 0 then (([], none), f)
  else
    let rest := ((fs f.path).getD []).drop f.off
    if rest = [] then (([], some Err.eof), f)
    else ((rest.take len, none), { f with off := f.off + (rest.take len).length })

structure ChunkReader where
  chunkPaths : RecvChan
  curChunkFile : Option OsFile
  curChunkFileOffset : Int
  deriving DecidableEq, Repr

def NewChunkReader (chunkPaths : RecvChan) : ChunkReader :=
  { chunkPaths := chunkPaths, curChunkFile := none, curChunkFileOffset := 0 }

/-- `openNextChunk` of the reader: closes the current file if there is one
(the field keeps pointing at it), receives the next path and opens it. -/
def ChunkReader.openNextChunk (cr : ChunkReader) (fs : FS) :
    Except Stop (Option Err × ChunkReader) :=
  let closed : Option Err × ChunkReader :=
    match cr.curChunkFile with
    | some f =>
      match f.Close with
      | (some _, _) => (some Err.closeCurChunkFile, cr)
      | (none, f1) => (none, { cr with curChunkFile := some f1 })
    | none => (none, cr)
  match closed with
  | (some e, cr1) => Except.ok (some e, cr1)
  | (none, cr1) =>
    match cr1.chunkPaths.recv with
    | none => Except.error Stop.blocked
    | some (none, ch) => Except.ok (some Err.eof, { cr1 with chunkPaths := ch })
    | some (some chunkPath, ch) =>
      match osOpen fs chunkPath with
      | Except.error e => Except.ok (some e, { cr1 with chunkPaths := ch })
      | Except.ok f =>
        Except.ok (none, { cr1 with chunkPaths := ch, curChunkFile := some f,
                                    curChunkFileOffset := 0 })

/-- The result of `Read`: `(n, err)`, the buffer afterwards, the reader. -/
abbrev ReadResult := Except Stop ((Nat × Option Err) × List Byte × ChunkReader)

/-- The `for totalRead < len(buf)` loop of `Read`, one iteration per unit of
fuel. -/
def ChunkReader.readLoop (fs : FS) : Nat → ChunkReader → List Byte → Nat → ReadResult
  | 0, _, _, _ => Except.error Stop.outOfFuel
  | fuel + 1, cr, buf, totalRead =>
    if totalRead < buf.length then
      match cr.curChunkFile with
      | none => Except.ok ((totalRead, some Err.errInvalid), buf, cr)
      | some f =>
        let ((data, err), f1) := f.Read fs (buf.length - totalRead)
        let buf1 := buf.take totalRead ++ data ++ buf.drop (totalRead + data.length)
        let totalRead1 := totalRead + data.length
        let cr1 := { cr with curChunkFile := some f1 }
        match err with
        | none => ChunkReader.readLoop fs fuel cr1 buf1 totalRead1
        | some Err.eof =>
          match cr1.openNextChunk fs with
          | Except.error s => Except.error s
          | Except.ok (some nextErr, cr2) =>
            if nextErr = Err.eof then Except.ok ((totalRead1, some Err.eof), buf1, cr2)
            else Except.ok ((totalRead1, some nextErr), buf1, cr2)
          | Except.ok (none, cr2) => ChunkReader.readLoop fs fuel cr2 buf1 totalRead1
        | some e => Except.ok ((totalRead1, some e), buf1, cr1)
    else Except.ok ((totalRead, none), buf, cr)

/-- `Read`, with the fuel for its loop. -/
def ChunkReader.Read (fs : FS) (fuel : Nat) (cr : ChunkReader) (buf : List Byte) : ReadResult :=
  match cr.curChunkFile with
  | none =>
    match cr.openNextChunk fs with
    | Except.error s => Except.error s
    | Except.ok (some err, cr1) => Except.ok ((0, some err), buf, cr1)
    | Except.ok (none, cr1) => cr1.readLoop fs fuel buf 0
  | some _ => cr.readLoop fs fuel buf 0

/-! ## cmd/streamy-api/main.go -/

/-- The identity of a channel handed to a downloader. -/
abbrev ChanId := Nat

/-- The downloaders' channels, by identity. -/
abbrev Heap := ChanId → Chan

def Heap.set (h : Heap) (c : ChanId) (ch : Chan) : Heap :=
  fun d => if d = c then ch else h d

/-- `c <- v`. -/
def Heap.send (h : Heap) (c : ChanId) (v : String) : Except Panic Heap :=
  if (h c).closed then Except.error Panic.sendOnClosedChannel
  else Except.ok (h.set c { h c with sent := (h c).sent ++ [v] })

/-- `close(c)`. -/
def Heap.close (h : Heap) (c : ChanId) : Except Panic Heap :=
  if (h c).closed then Except.error Panic.closeOfClosedChannel
  else Except.ok (h.set c { h c with closed := true })

/-- `for _, filePath := range paths { consumer <- filePath }`. -/
def sendPaths (consumer : ChanId) : List String → Heap → Except Panic Heap
  | [], h => Except.ok h
  | filePath :: rest, h =>
    match h.send consumer filePath with
    | Except.error p => Except.error p
    | Except.ok h1 => sendPaths consumer rest h1

/-- `for _, consumer := range consumers { consumer <- filePath }`. -/
def sendToAll (filePath : String) : List ChanId → Heap → Except Panic Heap
  | [], h => Except.ok h
  | consumer :: rest, h =>
    match h.send consumer filePath with
    | Except.error p => Except.error p
    | Except.ok h1 => sendToAll filePath rest h1

/-- `for _, consumer := range consumers { close(consumer) }`. -/
def closeAll : List ChanId → Heap → Except Panic Heap
  | [], h => Except.ok h
  | consumer :: rest, h =>
    match h.close consumer with
    | Except.error p => Except.error p
    | Except.ok h1 => closeAll rest h1

/-- What one pass of the `select` in `handleNewChunkConsumers` receives: a
consumer from `chunkPathConsumers`, a path from `chunksComplete`, or the news
that `chunksComplete` is closed. -/
inductive Event where
  | consumer (c : ChanId)
  | chunk (filePath : String)
  | closed
  deriving DecidableEq, Repr

/-- The locals of the goroutine of `handleNewChunkConsumers`, and whether it
has returned. -/
structure Coordinator where
  chunkPaths : List String
  chunkConsumers : List ChanId
  returned : Bool
  deriving DecidableEq, Repr

/-- One pass of the `for { select { ... } }` loop.  Once the goroutine has
returned nothing is received any more. -/
def Coordinator.step (co : Coordinator) (h : Heap) (ev : Event) :
    Except Panic (Coordinator × Heap) :=
  if co.returned then Except.ok (co, h)
  else
    match ev with
    | Event.consumer consumer =>
      let co1 := { co with chunkConsumers := co.chunkConsumers ++ [consumer] }
      match sendPaths consumer co1.chunkPaths h with
      | Except.error p => Except.error p
      | Except.ok h1 => Except.ok (co1, h1)
    | Event.chunk filePath =>
      let co1 := { co with chunkPaths := co.chunkPaths ++ [filePath] }
      match sendToAll filePath co1.chunkConsumers h with
      | Except.error p => Except.error p
      | Except.ok h1 => Except.ok (co1, h1)
    | Event.closed =>
      match closeAll co.chunkConsumers h with
      | Except.error p => Except.error p
      | Except.ok h1 => Except.ok ({ co with returned := true }, h1)

/-- The loop over a serialized sequence of events. -/
def Coordinator.run (co : Coordinator) (h : Heap) : List Event → Except Panic (Coordinator × Heap)
  | [] => Except.ok (co, h)
  | ev :: rest =>
    match co.step h ev with
    | Except.error p => Except.error p
    | Except.ok (co1, h1) => Coordinator.run co1 h1 rest

/-- `handleNewChunkConsumers` on a serialized sequence of events. -/
def handleNewChunkConsumers (events : List Event) (h : Heap) : Except Panic (Coordinator × Heap) :=
  Coordinator.run { chunkPaths := [], chunkConsumers := [], returned := false } h events

/-- The events a writer's channel `chunksComplete` gives the coordinator. -/
def Chan.events (ch : Chan) : List Event :=
  ch.sent.map Event.chunk ++ (if ch.closed then [Event.closed] else [])

/-- A `request`; `chunkPathConsumers` holds the channels sent on it that the
coordinator has not received yet. -/
structure request where
  chunkPathConsumers : List ChanId
  chunkPaths : List String
  deriving DecidableEq, Repr

def request.Done (req : request) : Bool :=
  req.chunkPaths.length != 0

/-- Lines 100-109 of `newDownloadHandler`: the channel `chunkPaths` (identity
`fresh`) is made, and either registered with the coordinator or filled from
`req.chunkPaths` and closed.  `chunkPathConsumers` is made with room for 8
values (line 70), so the registration waits, `none`, when 8 are pending; the
channel filled from `req.chunkPaths` is made with room for all of them. -/
def downloadAttach (req : request) (h : Heap) (fresh : ChanId) :
    Except Panic (Option (request × Heap)) :=
  let h0 := h.set fresh { sent := [], closed := false }
  if !req.Done then
    if req.chunkPathConsumers.length < 8 then
      Except.ok (some ({ req with chunkPathConsumers := req.chunkPathConsumers ++ [fresh] }, h0))
    else Except.ok none
  else
    match sendPaths fresh req.chunkPaths h0 with
    | Except.error p => Except.error p
    | Except.ok h1 =>
      match h1.close fresh with
      | Except.error p => Except.error p
      | Except.ok h2 => Except.ok (some (req, h2))

/-- Lines 182-185 of `newUploadHandler`. -/
def request.recordChunks (req : request) (chunkWriter : ChunkWriter) : request :=
  { req with chunkPaths := chunkWriter.FilePaths }

/-- Lines 173-185 of `newUploadHandler`: close the writer and, unless that
failed, record its chunk paths in the request. -/
def uploadFinish (req : request) (chunkWriter : ChunkWriter) :
    Except Panic (request × ChunkWriter) :=
  match chunkWriter.Close with
  | Except.error p => Except.error p
  | Except.ok (some _, sw1) => Except.ok (req, sw1)
  | Except.ok (none, sw1) => Except.ok (req.recordChunks sw1, sw1)

/-! ## Definitions used to state the properties -/

/-- The value of a decimal digit character. -/
def digitVal (c : Char) : Nat := c.toNat - 48

/-- The number a string of decimal digits denotes. -/
def parseDec (cs : List Char) : Nat := cs.foldl (fun a c => 10 * a + digitVal c) 0

/-- Storage without any file. -/
def emptyFS : FS := fun _ => none

/-- Successive `Write` calls, each of which has to return a nil error. -/
def ChunkWriter.writeAll (sw : ChunkWriter) (fs : FS) : List (List Byte) → Option (ChunkWriter × FS)
  | [] => some (sw, fs)
  | b :: bs =>
    match sw.Write fs b with
    | Except.ok ((_, none), sw1, fs1) => ChunkWriter.writeAll sw1 fs1 bs
    | _ => none

/-- A writer made by `NewChunkWriter` on the channel `ch`, after the given
successful `Write` calls. -/
def writerFrom (pfx : String) (M : Int) (ch : Chan) (fs : FS) (bs : List (List Byte)) :
    Option (ChunkWriter × FS) :=
  match NewChunkWriter pfx M (some ch) fs with
  | Except.ok (none, sw, fs1) => sw.writeAll fs1 bs
  | _ => none

/-- A writer made by `NewChunkWriter` on a fresh open channel, after the given
successful `Write` calls. -/
def writerAfter (pfx : String) (M : Int) (fs : FS) (bs : List (List Byte)) :
    Option (ChunkWriter × FS) :=
  writerFrom pfx M { sent := [], closed := false } fs bs

/-- `NewChunkWriter` on a fresh open channel, the given successful `Write`
calls, then a successful `Close`: the final writer and storage. -/
def session (pfx : String) (M : Int) (fs : FS) (bs : List (List Byte)) :
    Option (ChunkWriter × FS) :=
  match writerAfter pfx M fs bs with
  | some (sw, fs1) =>
    match sw.Close with
    | Except.ok (none, sw1) => some (sw1, fs1)
    | _ => none
  | none => none

/-- The contents of the files named by a list of paths. -/
def chunkContents (fs : FS) (paths : List String) : List (List Byte) :=
  paths.map (fun p => (fs p).getD [])

/-- What holds of a writer between successful calls of `Write`: its finished
chunks are numbered from 0, its current chunk is open and carries the next
number, and everything finished has been sent on the open event channel,
after the values `s0` the channel held when the writer was made. -/
structure WInv (pfx : String) (s0 : List String) (sw : ChunkWriter) : Prop where
  pfx_eq : sw.chunkPathPrefix = pfx
  paths : sw.chunkPaths = (List.range sw.chunkPaths.length).map (chunkPathOf pfx)
  cur : sw.curChunkPath = chunkPathOf pfx sw.chunkPaths.length
  file : ∃ f, sw.curChunkFile = some f ∧ f.closed = false ∧ f.path = sw.curChunkPath
  chan : ∃ ch, sw.chunksWritten = some ch ∧ ch.closed = false ∧ ch.sent = s0 ++ sw.chunkPaths

/-- What holds of the storage between successful calls of `Write` when the
chunk files started empty: the chunks so far hold `data`, the current file is
written up to its end, and the chunk files not yet opened are still empty. -/
structure FsInv (pfx : String) (data : List Byte) (sw : ChunkWriter) (fs : FS) : Prop where
  off : ∀ f, sw.curChunkFile = some f → f.off = ((fs f.path).getD []).length
  exist : ∀ k, k ≤ sw.chunkPaths.length → fs (chunkPathOf pfx k) ≠ none
  content :
    (chunkContents fs ((List.range (sw.chunkPaths.length + 1)).map (chunkPathOf pfx))).flatten = data
  later : ∀ k, sw.chunkPaths.length < k → (fs (chunkPathOf pfx k)).getD [] = []

/-- The bytes a reader has still to deliver: the rest of its current file, then
the chunks whose paths are pending on its channel. -/
def ChunkReader.remaining (fs : FS) (cr : ChunkReader) : List Byte :=
  (match cr.curChunkFile with
   | some f => ((fs f.path).getD []).drop f.off
   | none => []) ++ (chunkContents fs cr.chunkPaths.pending).flatten

/-- A reader over a closed sequence of readable chunks that has not run into
the end of the sequence: its channel is closed, every pending path names an
existing file, and its current file, if any, is open. -/
structure ChunkReader.Live (fs : FS) (cr : ChunkReader) : Prop where
  closed : cr.chunkPaths.closed = true
  readable : ∀ p, p ∈ cr.chunkPaths.pending → fs p ≠ none
  fileOpen : ∀ f, cr.curChunkFile = some f → f.closed = false

/-- What a call that set out with `t` bytes already in `buf` and the stream
`S` ahead of it has to return: `buf` filled with the next bytes of `S` up to
its length or the end of `S`, a nil error exactly when it was filled, otherwise
end-of-stream, and a reader that has the rest of `S` ahead of it and whose
current file is open exactly when `buf` was filled; at most `P` paths are
still pending. -/
def ReadPost (fs : FS) (S : List Byte) (P : Nat) (buf : List Byte) (t : Nat)
    (r : ReadResult) : Prop :=
  ∃ cr' f', r =
      Except.ok ((t + min (buf.length - t) S.length,
          if min (buf.length - t) S.length = buf.length - t then none else some Err.eof),
        buf.take t ++ S.take (min (buf.length - t) S.length) ++
          buf.drop (t + min (buf.length - t) S.length),
        cr') ∧
    cr'.curChunkFile = some f' ∧
    cr'.chunkPaths.closed = true ∧
    (∀ p, p ∈ cr'.chunkPaths.pending → fs p ≠ none) ∧
    cr'.chunkPaths.pending.length ≤ P ∧
    cr'.remaining fs = S.drop (min (buf.length - t) S.length) ∧
    (f'.closed = false ↔ min (buf.length - t) S.length = buf.length - t)

/-- Reading until end-of-stream, as `io.Copy(w, chunkReader)` does in
`newDownloadHandler`: `Read` into a buffer of `size` bytes and append
`buf[:n]` to the output until `Read` returns an error; end-of-stream ends the
copy without an error.  `readFuel` is the fuel of each `Read`, the fourth
argument that of this loop. -/
def copyAll (fs : FS) (size readFuel : Nat) :
    Nat → ChunkReader → List Byte → Except Stop (List Byte × Option Err)
  | 0, _, _ => Except.error Stop.outOfFuel
  | fuel + 1, cr, out =>
    match cr.Read fs readFuel (List.replicate size 0) with
    | Except.error s => Except.error s
    | Except.ok ((n, err), buf, cr1) =>
      let out1 := out ++ buf.take n
      match err with
      | none => copyAll fs size readFuel fuel cr1 out1
      | some Err.eof => Except.ok (out1, none)
      | some e => Except.ok (out1, some e)

/-- Storage holding exactly the listed files. -/
def fsOf (files : List (String × List Byte)) : FS :=
  fun p => files.lookup p

/-- A call on a `ChunkWriter`. -/
inductive Call where
  | write (buf : List Byte)
  | close
  deriving DecidableEq, Repr

/-- One call, whatever `error` it returns; a panic ends the run. -/
def ChunkWriter.call (sw : ChunkWriter) (fs : FS) : Call → Except Panic (ChunkWriter × FS)
  | Call.write buf =>
    match sw.Write fs buf with
    | Except.error p => Except.error p
    | Except.ok (_, sw1, fs1) => Except.ok (sw1, fs1)
  | Call.close =>
    match sw.Close with
    | Except.error p => Except.error p
    | Except.ok (_, sw1) => Except.ok (sw1, fs)

/-- A sequence of calls. -/
def ChunkWriter.calls (sw : ChunkWriter) (fs : FS) : List Call → Except Panic (ChunkWriter × FS)
  | [] => Except.ok (sw, fs)
  | c :: cs =>
    match sw.call fs c with
    | Except.error p => Except.error p
    | Except.ok (sw1, fs1) => ChunkWriter.calls sw1 fs1 cs

/-- What holds of a writer after any calls: its finished chunks are numbered
from 0 and, while its current file is open, the current chunk carries the next
number. -/
structure PathInv (pfx : String) (sw : ChunkWriter) : Prop where
  pfx_eq : sw.chunkPathPrefix = pfx
  paths : sw.chunkPaths = (List.range sw.chunkPaths.length).map (chunkPathOf pfx)
  file : ∃ f, sw.curChunkFile = some f ∧
    (f.closed = false → sw.curChunkPath = chunkPathOf pfx sw.chunkPaths.length)

/-- The consumers a sequence of events attaches, in order. -/
def attached : List Event → List ChanId
  | [] => []
  | Event.consumer c :: rest => c :: attached rest
  | _ :: rest => attached rest

/-- The chunk paths a sequence of events publishes, in order. -/
def published : List Event → List String
  | [] => []
  | Event.chunk filePath :: rest => filePath :: published rest
  | _ :: rest => published rest

/-- A heap in which every channel is freshly made. -/
def freshHeap : Heap := fun _ => { sent := [], closed := false }

/-- The state of an upload once `chunkWriter.Close()` has returned and the
coordinator has handled everything sent on `chunksComplete`, before line 182
of `newUploadHandler` runs: the closed writer, the coordinator, the heap. -/
def uploadClosed (pfx : String) (M : Int) (fs : FS) (bs : List (List Byte)) (h : Heap) :
    Option (ChunkWriter × Coordinator × Heap) :=
  match session pfx M fs bs with
  | some (sw, _) =>
    match sw.chunksWritten with
    | some ch =>
      match handleNewChunkConsumers ch.events h with
      | Except.ok (co, h1) => some (sw, co, h1)
      | Except.error _ => none
    | none => none
  | none => none

/-- A sample run: chunks of at most 4 bytes, writes of 3 and 2 bytes, then
`Close`. -/
def sampleSession : ChunkWriter × FS :=
  (session "p" 4 emptyFS [[1, 2, 3], [4, 5]]).getD default

/-- `NewChunkWriter(pfx, M, ch)` followed by the given calls. -/
def callsFromNew (pfx : String) (M : Int) (ch : Option Chan) (fs : FS) (cs : List Call) :
    Except Panic (ChunkWriter × FS) :=
  match NewChunkWriter pfx M ch fs with
  | Except.error p => Except.error p
  | Except.ok (_, sw, fs1) => sw.calls fs1 cs

/-- The writer of the samples as `NewChunkWriter` returns it. -/
def sampleNew : Option Err × ChunkWriter × FS :=
  match NewChunkWriter "p" 4 (some { sent := [], closed := false }) emptyFS with
  | Except.ok r => r
  | Except.error _ => default

/-- The calls of the sample run: two writes, a close, and a write after it. -/
def sampleCallList : List Call :=
  [Call.write [1, 2, 3], Call.write [4, 5], Call.close, Call.write [6]]

/-- The sample writer after the sample calls. -/
def sampleCalls : ChunkWriter × FS :=
  match sampleNew.2.1.calls sampleNew.2.2 sampleCallList with
  | Except.ok r => r
  | Except.error _ => default

/-! # Theorems -/

/-! ## Chunk paths -/

theorem digitVal_digitChar (k : Nat) (hk : k < 10) : digitVal (Nat.digitChar k) = k := by
  interval_cases k <;> decide

theorem toDigitsCore_append (fuel : Nat) : ∀ (n : Nat) (ds : List Char),
    Nat.toDigitsCore 10 fuel n ds = Nat.toDigitsCore 10 fuel n [] ++ ds := by
  induction fuel with
  | zero => intro n ds; simp [Nat.toDigitsCore]
  | succ fuel ih =>
    intro n ds
    simp only [Nat.toDigitsCore]
    split
    · simp
    · rw [ih (n / 10) (Nat.digitChar (n % 10) :: ds), ih (n / 10) [Nat.digitChar (n % 10)]]
      simp

theorem parseDec_append_singleton (xs : List Char) (c : Char) :
    parseDec (xs ++ [c]) = 10 * parseDec xs + digitVal c := by
  simp [parseDec, List.foldl_append]

theorem parseDec_toDigitsCore (fuel : Nat) : ∀ n : Nat, n < fuel →
    parseDec (Nat.toDigitsCore 10 fuel n []) = n := by
  induction fuel with
  | zero => intro n h; omega
  | succ fuel ih =>
    intro n h
    simp only [Nat.toDigitsCore]
    split
    · rename_i h0
      have : n % 10 = n := by omega
      simp [parseDec, this]
      exact digitVal_digitChar n (by omega)
    · rename_i h0
      rw [toDigitsCore_append, parseDec_append_singleton, ih (n / 10) (by omega),
        digitVal_digitChar _ (Nat.mod_lt _ (by decide))]
      omega

theorem parseDec_zeros (k : Nat) (xs : List Char) :
    parseDec (List.replicate k '0' ++ xs) = parseDec xs := by
  induction k with
  | zero => simp
  | succ k ih =>
    simp only [List.replicate_succ, List.cons_append, parseDec, List.foldl_cons] at ih ⊢
    have : digitVal '0' = 0 := by decide
    simpa [this] using ih

theorem parseDec_fmt03d (n : Nat) : parseDec (fmt03d n).data = n := by
  simp only [fmt03d, parseDec_zeros]
  exact parseDec_toDigitsCore (n + 1) n (Nat.lt_succ_self n)

theorem fmt03d_injective {a b : Nat} (h : fmt03d a = fmt03d b) : a = b := by
  have := congrArg (fun s => parseDec s.data) h
  simpa [parseDec_fmt03d] using this

theorem chunkPathOf_injective (pfx : String) {a b : Nat}
    (h : chunkPathOf pfx a = chunkPathOf pfx b) : a = b := by
  apply fmt03d_injective
  have h1 := congrArg String.data h
  simp only [chunkPathOf, String.data_append, List.append_assoc] at h1
  have h2 := List.append_cancel_left (List.append_cancel_left h1)
  have h3 := List.append_cancel_right h2
  exact String.ext h3

/-! ## Storage and the writer's steps -/

@[simp] theorem fs_set_same (fs : FS) (p : String) (d : List Byte) : (fs.set p d) p = some d := by
  simp [FS.set]

theorem fs_set_other (fs : FS) {p q : String} (d : List Byte) (h : q ≠ p) :
    (fs.set p d) q = fs q := by
  simp [FS.set, h]

theorem fileWrite_open (sw : ChunkWriter) (f : OsFile) (fs : FS) (b : List Byte)
    (hf : sw.curChunkFile = some f) (hfo : f.closed = false) :
    sw.fileWrite fs b =
      ((b.length, none), { sw with curChunkFile := some { f with off := f.off + b.length } },
        fs.set f.path (((fs f.path).getD []).take f.off ++ b ++
          ((fs f.path).getD []).drop (f.off + b.length))) := by
  simp [ChunkWriter.fileWrite, hf, OsFile.Write, hfo]

theorem openNextChunk_open (sw : ChunkWriter) (f : OsFile) (ch : Chan) (fs : FS)
    (hf : sw.curChunkFile = some f) (hfo : f.closed = false)
    (hc : sw.chunksWritten = some ch) (hco : ch.closed = false) :
    sw.openNextChunk fs =
      Except.ok (none,
        { sw with
          chunkPaths := sw.chunkPaths ++ [sw.curChunkPath]
          chunksWritten := some { ch with sent := ch.sent ++ [sw.curChunkPath] }
          curChunkPath := chunkPathOf sw.chunkPathPrefix (sw.chunkPaths.length + 1)
          curChunkSize := 0
          curChunkFile := some { path := chunkPathOf sw.chunkPathPrefix (sw.chunkPaths.length + 1),
                                 off := 0, closed := false } },
        fs.set (chunkPathOf sw.chunkPathPrefix (sw.chunkPaths.length + 1))
          ((fs (chunkPathOf sw.chunkPathPrefix (sw.chunkPaths.length + 1))).getD [])) := by
  simp [ChunkWriter.openNextChunk, OsFile.Close, ChunkWriter.chunkDone, hf, hfo, hc, hco, osOpenFile]

theorem Write_ok_cases {sw sw' : ChunkWriter} {fs fs' : FS} {buf : List Byte} {n : Nat}
    {f : OsFile} {ch : Chan}
    (hf : sw.curChunkFile = some f) (hfo : f.closed = false)
    (hc : sw.chunksWritten = some ch) (hco : ch.closed = false)
    (h : sw.Write fs buf = Except.ok ((n, none), sw', fs')) :
    n = buf.length ∧
    ((sw.curChunkSize + (buf.length : Int) ≤ sw.maxChunkSize ∧
        sw' = { sw with curChunkFile := some { f with off := f.off + buf.length },
                        curChunkSize := sw.curChunkSize + (buf.length : Int) } ∧
        fs' = fs.set f.path (((fs f.path).getD []).take f.off ++ buf ++
                ((fs f.path).getD []).drop (f.off + buf.length))) ∨
     (∃ r : Nat, (r : Int) = sw.maxChunkSize - sw.curChunkSize ∧ r < buf.length ∧
        sw' = { sw with
          chunkPaths := sw.chunkPaths ++ [sw.curChunkPath]
          chunksWritten := some { ch with sent := ch.sent ++ [sw.curChunkPath] }
          curChunkPath := chunkPathOf sw.chunkPathPrefix (sw.chunkPaths.length + 1)
          curChunkSize := (buf.length : Int)
          curChunkFile := some { path := chunkPathOf sw.chunkPathPrefix (sw.chunkPaths.length + 1),
                                 off := buf.length - r, closed := false } } ∧
        fs' = ((fs.set f.path (((fs f.path).getD []).take f.off ++ buf.take r ++
                ((fs f.path).getD []).drop (f.off + r))).set
                (chunkPathOf sw.chunkPathPrefix (sw.chunkPaths.length + 1))
                (buf.drop r ++ (((fs.set f.path (((fs f.path).getD []).take f.off ++ buf.take r ++
                    ((fs f.path).getD []).drop (f.off + r)))
                  (chunkPathOf sw.chunkPathPrefix (sw.chunkPaths.length + 1))).getD []).drop
                    (buf.length - r))))) := by
  unfold ChunkWriter.Write at h
  split at h
  · rename_i hgt
    simp only at h
    split at h
    · simp at h
    · rename_i hr
      obtain ⟨r, hr'⟩ : ∃ r : Nat, sw.maxChunkSize - sw.curChunkSize = (r : Int) :=
        ⟨(sw.maxChunkSize - sw.curChunkSize).toNat, by omega⟩
      have hrlt : r < buf.length := by omega
      rw [hr', Int.toNat_ofNat, fileWrite_open sw f fs _ hf hfo] at h
      simp only at h
      have e1 := openNextChunk_open
        { sw with curChunkFile := some { f with off := f.off + (buf.take r).length } }
        { f with off := f.off + (buf.take r).length } ch
        (fs.set f.path (((fs f.path).getD []).take f.off ++ buf.take r ++
          ((fs f.path).getD []).drop (f.off + (buf.take r).length))) rfl hfo hc hco
      simp only at e1
      rw [e1] at h
      simp only at h
      rw [fileWrite_open _ ⟨chunkPathOf sw.chunkPathPrefix (sw.chunkPaths.length + 1), 0, false⟩
        _ _ rfl rfl] at h
      simp only [Except.ok.injEq, Prod.mk.injEq, and_true] at h
      obtain ⟨h1, h2, h3⟩ := h
      have hlen : (buf.take r).length = r := by simp; omega
      have hlen2 : (buf.drop r).length = buf.length - r := by simp
      refine ⟨by rw [← h1, hlen, hlen2]; omega, Or.inr ⟨r, hr'.symm, hrlt, ?_, ?_⟩⟩
      · rw [← h2]
        simp only [hlen, hlen2, ChunkWriter.mk.injEq, true_and, and_true]
        refine ⟨?_, ?_⟩
        · push_cast; omega
        · simp
      · rw [← h3]
        funext q
        simp only [hlen, hlen2, FS.set, Nat.zero_add, List.take_zero, List.nil_append]
        split <;> simp
  · rename_i hle
    rw [fileWrite_open sw f fs _ hf hfo] at h
    simp only [Except.ok.injEq, Prod.mk.injEq, and_true, Nat.zero_add] at h
    obtain ⟨h1, h2, h3⟩ := h
    refine ⟨h1.symm, Or.inl ⟨by omega, ?_, h3.symm⟩⟩
    rw [← h2]

/-! ## Invariants of the writer -/

theorem chunkContents_set_of_not_mem (fs : FS) (p : String) (d : List Byte) (paths : List String)
    (h : p ∉ paths) : chunkContents (fs.set p d) paths = chunkContents fs paths := by
  unfold chunkContents
  apply List.map_congr_left
  intro q hq
  have : q ≠ p := fun e => h (e ▸ hq)
  rw [fs_set_other fs d this]

theorem chunkPathOf_not_mem_range (pfx : String) (n k : Nat) (h : n ≤ k) :
    chunkPathOf pfx k ∉ (List.range n).map (chunkPathOf pfx) := by
  intro hm
  obtain ⟨j, hj, e⟩ := List.mem_map.1 hm
  have := chunkPathOf_injective pfx e
  have := List.mem_range.1 hj
  omega

theorem NewChunkWriter_ok (pfx : String) (M : Int) (ch : Chan) (fs : FS) :
    NewChunkWriter pfx M (some ch) fs =
      Except.ok (none,
        { chunkPathPrefix := pfx, maxChunkSize := M, chunkPaths := [],
          chunksWritten := some ch,
          curChunkPath := chunkPathOf pfx 0, curChunkSize := 0,
          curChunkFile := some { path := chunkPathOf pfx 0, off := 0, closed := false } },
        fs.set (chunkPathOf pfx 0) ((fs (chunkPathOf pfx 0)).getD [])) := by
  simp [NewChunkWriter, ChunkWriter.openNextChunk, osOpenFile]

theorem WInv_new (pfx : String) (M : Int) (ch : Chan) (fs : FS) {sw : ChunkWriter} {fs1 : FS}
    (hch : ch.closed = false)
    (h : NewChunkWriter pfx M (some ch) fs = Except.ok (none, sw, fs1)) :
    WInv pfx ch.sent sw := by
  rw [NewChunkWriter_ok] at h
  simp only [Except.ok.injEq, Prod.mk.injEq, true_and] at h
  obtain ⟨rfl, -⟩ := h
  exact ⟨rfl, rfl, rfl, ⟨_, rfl, rfl, rfl⟩, ⟨_, rfl, hch, by simp⟩⟩

theorem WInv_Write {pfx : String} {s0 : List String} {sw sw' : ChunkWriter} {fs fs' : FS}
    {buf : List Byte} {n : Nat}
    (hi : WInv pfx s0 sw) (h : sw.Write fs buf = Except.ok ((n, none), sw', fs')) :
    WInv pfx s0 sw' := by
  obtain ⟨hp, hpaths, hcur, ⟨f, hf, hfo, hfp⟩, ⟨ch, hc, hco, hcs⟩⟩ := hi
  obtain ⟨-, h1 | ⟨r, -, -, h1, -⟩⟩ := Write_ok_cases hf hfo hc hco h
  · obtain ⟨-, rfl, -⟩ := h1
    exact ⟨hp, hpaths, hcur, ⟨_, rfl, hfo, hfp⟩, ⟨ch, hc, hco, hcs⟩⟩
  · subst h1
    refine ⟨hp, ?_, ?_, ⟨_, rfl, rfl, rfl⟩, ⟨_, rfl, hco, ?_⟩⟩
    · simp only [List.length_append, List.length_singleton, List.range_succ, List.map_append,
        List.map_cons, List.map_nil]
      rw [← hpaths, hcur]
    · simp [hp]
    · simp [hcs]

theorem FsInv_new (pfx : String) (M : Int) (ch : Chan) (fs : FS) {sw : ChunkWriter} {fs1 : FS}
    (hfs : ∀ k, (fs (chunkPathOf pfx k)).getD [] = [])
    (h : NewChunkWriter pfx M (some ch) fs = Except.ok (none, sw, fs1)) :
    FsInv pfx [] sw fs1 := by
  rw [NewChunkWriter_ok] at h
  simp only [Except.ok.injEq, Prod.mk.injEq, true_and] at h
  obtain ⟨rfl, rfl⟩ := h
  refine ⟨?_, ?_, ?_, ?_⟩
  · intro f hf
    simp only [Option.some.injEq] at hf
    subst hf
    simp [hfs]
  · intro k hk
    have : k = 0 := by simpa using hk
    subst this
    simp
  · simp [chunkContents, hfs]
  · intro k hk
    have : chunkPathOf pfx k ≠ chunkPathOf pfx 0 := fun e => by
      have := chunkPathOf_injective pfx e
      simp at hk
      omega
    rw [fs_set_other _ _ this]
    exact hfs k

theorem chunkContents_append (fs : FS) (a b : List String) :
    chunkContents fs (a ++ b) = chunkContents fs a ++ chunkContents fs b := by
  simp [chunkContents]

theorem FsInv_Write {pfx : String} {s0 : List String} {data : List Byte} {sw sw' : ChunkWriter}
    {fs fs' : FS} {buf : List Byte} {n : Nat}
    (hi : WInv pfx s0 sw) (hs : FsInv pfx data sw fs)
    (h : sw.Write fs buf = Except.ok ((n, none), sw', fs')) :
    FsInv pfx (data ++ buf) sw' fs' := by
  obtain ⟨hp, hpaths, hcur, ⟨f, hf, hfo, hfp⟩, ⟨ch, hc, hco, hcs⟩⟩ := hi
  obtain ⟨hoff, hex, hcont, hlater⟩ := hs
  have hoff' := hoff f hf
  have hpath : f.path = chunkPathOf pfx sw.chunkPaths.length := hfp.trans hcur
  obtain ⟨-, h1 | ⟨r, -, hr, h1, h2⟩⟩ := Write_ok_cases hf hfo hc hco h
  · obtain ⟨-, rfl, rfl⟩ := h1
    have hold : List.take f.off ((fs f.path).getD []) ++ buf ++
        List.drop (f.off + buf.length) ((fs f.path).getD []) = (fs f.path).getD [] ++ buf := by
      rw [hoff', List.take_length, List.drop_eq_nil_of_le (by omega)]
      simp
    rw [hold]
    refine ⟨?_, ?_, ?_, ?_⟩
    · intro g hg
      simp only [Option.some.injEq] at hg
      subst hg
      simp [hoff']
    · intro k hk
      by_cases e : chunkPathOf pfx k = f.path
      · rw [e]; simp
      · rw [fs_set_other _ _ e]; exact hex k hk
    · simp only [List.range_succ, List.map_append, List.map_cons, List.map_nil,
        chunkContents_append, List.flatten_append] at hcont ⊢
      rw [hpath, chunkContents_set_of_not_mem _ _ _ _
        (chunkPathOf_not_mem_range pfx _ _ (le_refl _))]
      rw [← hcont]
      simp [chunkContents]
    · intro k hk
      have hk' : sw.chunkPaths.length < k := hk
      have e : chunkPathOf pfx k ≠ f.path := fun e => by
        have := chunkPathOf_injective pfx (e.trans hpath)
        omega
      rw [fs_set_other _ _ e]
      exact hlater k hk
  · subst h1 h2
    have hold : List.take f.off ((fs f.path).getD []) ++ List.take r buf ++
        List.drop (f.off + r) ((fs f.path).getD []) = (fs f.path).getD [] ++ List.take r buf := by
      rw [hoff', List.take_length, List.drop_eq_nil_of_le (by omega)]
      simp
    have hne : chunkPathOf sw.chunkPathPrefix (sw.chunkPaths.length + 1) ≠ f.path := fun e => by
      rw [hp] at e
      have := chunkPathOf_injective pfx (e.trans hpath)
      omega
    have hnew : (fs (chunkPathOf sw.chunkPathPrefix (sw.chunkPaths.length + 1))).getD [] = [] := by
      rw [hp]; exact hlater _ (Nat.lt_succ_self _)
    rw [hold, fs_set_other _ _ hne, hnew]
    simp only [List.drop_nil, List.append_nil, hp]
    refine ⟨?_, ?_, ?_, ?_⟩
    · intro g hg
      simp only [Option.some.injEq] at hg
      subst hg
      simp
    · intro k hk
      simp only [List.length_append, List.length_singleton] at hk
      by_cases e1 : chunkPathOf pfx k = chunkPathOf pfx (sw.chunkPaths.length + 1)
      · rw [e1]; simp
      · rw [fs_set_other _ _ e1]
        by_cases e : chunkPathOf pfx k = f.path
        · rw [e]; simp
        · rw [fs_set_other _ _ e]
          apply hex k
          rcases Nat.lt_or_ge k (sw.chunkPaths.length + 1) with h' | h'
          · omega
          · exact absurd (by rw [show k = sw.chunkPaths.length + 1 by omega]) e1
    · simp only [List.length_append, List.length_singleton, List.range_succ, List.map_append,
        List.map_cons, List.map_nil, chunkContents_append, List.flatten_append] at hcont ⊢
      rw [chunkContents_set_of_not_mem _ _ _ _
        (chunkPathOf_not_mem_range pfx _ _ (Nat.le_succ _))]
      rw [hpath, chunkContents_set_of_not_mem _ _ _ _
        (chunkPathOf_not_mem_range pfx _ _ (le_refl _))]
      rw [← hcont]
      have hne' : chunkPathOf pfx sw.chunkPaths.length ≠
          chunkPathOf pfx (sw.chunkPaths.length + 1) := fun e => by
        have := chunkPathOf_injective pfx e
        omega
      simp [chunkContents, fs_set_other _ _ hne']
    · intro k hk
      simp only [List.length_append, List.length_singleton] at hk
      have e1 : chunkPathOf pfx k ≠ chunkPathOf pfx (sw.chunkPaths.length + 1) := fun e => by
        have := chunkPathOf_injective pfx e
        omega
      have e : chunkPathOf pfx k ≠ f.path := fun e => by
        have := chunkPathOf_injective pfx (e.trans hpath)
        omega
      rw [fs_set_other _ _ e1, fs_set_other _ _ e]
      exact hlater k (by omega)

theorem writeAll_cons_some {sw sw' : ChunkWriter} {fs fs' : FS} {b : List Byte}
    {bs : List (List Byte)} (h : sw.writeAll fs (b :: bs) = some (sw', fs')) :
    ∃ n sw1 fs1, sw.Write fs b = Except.ok ((n, none), sw1, fs1) ∧
      sw1.writeAll fs1 bs = some (sw', fs') := by
  unfold ChunkWriter.writeAll at h
  split at h
  · rename_i n sw1 fs1 heq
    exact ⟨n, sw1, fs1, heq, h⟩
  · simp at h

theorem WInv_writeAll {pfx : String} {s0 : List String} (bs : List (List Byte)) :
    ∀ {sw sw' : ChunkWriter} {fs fs' : FS}, WInv pfx s0 sw →
      sw.writeAll fs bs = some (sw', fs') → WInv pfx s0 sw' := by
  induction bs with
  | nil =>
    intro sw sw' fs fs' hi h
    simp only [ChunkWriter.writeAll, Option.some.injEq, Prod.mk.injEq] at h
    exact h.1 ▸ hi
  | cons b bs ih =>
    intro sw sw' fs fs' hi h
    obtain ⟨n, sw1, fs1, hw, hrest⟩ := writeAll_cons_some h
    exact ih (WInv_Write hi hw) hrest

theorem FsInv_writeAll {pfx : String} {s0 : List String} (bs : List (List Byte)) :
    ∀ {data : List Byte} {sw sw' : ChunkWriter} {fs fs' : FS}, WInv pfx s0 sw →
      FsInv pfx data sw fs → sw.writeAll fs bs = some (sw', fs') →
      FsInv pfx (data ++ bs.flatten) sw' fs' := by
  induction bs with
  | nil =>
    intro data sw sw' fs fs' hi hs h
    simp only [ChunkWriter.writeAll, Option.some.injEq, Prod.mk.injEq] at h
    obtain ⟨rfl, rfl⟩ := h
    simpa using hs
  | cons b bs ih =>
    intro data sw sw' fs fs' hi hs h
    obtain ⟨n, sw1, fs1, hw, hrest⟩ := writeAll_cons_some h
    have := ih (WInv_Write hi hw) (FsInv_Write hi hs hw) hrest
    simpa [List.append_assoc] using this

theorem writerFrom_some {pfx : String} {M : Int} {ch : Chan} {fs0 : FS} {bs : List (List Byte)}
    {sw : ChunkWriter} {fs : FS} (h : writerFrom pfx M ch fs0 bs = some (sw, fs)) :
    ∃ sw0 fs1, NewChunkWriter pfx M (some ch) fs0 = Except.ok (none, sw0, fs1) ∧
      sw0.writeAll fs1 bs = some (sw, fs) := by
  unfold writerFrom at h
  split at h
  · rename_i sw0 fs1 heq
    exact ⟨sw0, fs1, heq, h⟩
  · simp at h

theorem WInv_writerFrom {pfx : String} {M : Int} {ch : Chan} {fs0 : FS} {bs : List (List Byte)}
    {sw : ChunkWriter} {fs : FS} (hch : ch.closed = false)
    (h : writerFrom pfx M ch fs0 bs = some (sw, fs)) :
    WInv pfx ch.sent sw := by
  obtain ⟨sw0, fs1, h0, h1⟩ := writerFrom_some h
  exact WInv_writeAll bs (WInv_new pfx M ch fs0 hch h0) h1

theorem WInv_writerAfter {pfx : String} {M : Int} {fs0 : FS} {bs : List (List Byte)}
    {sw : ChunkWriter} {fs : FS} (h : writerAfter pfx M fs0 bs = some (sw, fs)) :
    WInv pfx [] sw :=
  @WInv_writerFrom pfx M { sent := [], closed := false } fs0 bs sw fs rfl h

theorem FsInv_writerAfter {pfx : String} {M : Int} {fs0 : FS} {bs : List (List Byte)}
    {sw : ChunkWriter} {fs : FS} (hfs : ∀ k, (fs0 (chunkPathOf pfx k)).getD [] = [])
    (h : writerAfter pfx M fs0 bs = some (sw, fs)) :
    FsInv pfx bs.flatten sw fs := by
  obtain ⟨sw0, fs1, h0, h1⟩ := writerFrom_some h
  simpa using FsInv_writeAll bs (WInv_new pfx M _ fs0 rfl h0) (FsInv_new pfx M _ fs0 hfs h0) h1

theorem Close_of_WInv {pfx : String} {s0 : List String} {sw : ChunkWriter}
    (hi : WInv pfx s0 sw) :
    ∃ f ch, sw.curChunkFile = some f ∧ sw.chunksWritten = some ch ∧ ch.closed = false ∧
      ch.sent = s0 ++ sw.chunkPaths ∧
      sw.Close = Except.ok (none,
        { sw with
          curChunkFile := some { f with closed := true }
          chunkPaths := sw.chunkPaths ++ [sw.curChunkPath]
          chunksWritten := some { sent := ch.sent ++ [sw.curChunkPath], closed := true } }) := by
  obtain ⟨hp, hpaths, hcur, ⟨f, hf, hfo, hfp⟩, ⟨ch, hc, hco, hcs⟩⟩ := hi
  refine ⟨f, ch, hf, hc, hco, hcs, ?_⟩
  simp [ChunkWriter.Close, hf, OsFile.Close, hfo, ChunkWriter.chunkDone, hc, hco,
    ChunkWriter.closeChunksWritten]

/-! ## The reader -/

theorem ReadPost_step (fs : FS) (S1 d buf : List Byte) (P1 P t : Nat) (r : ReadResult)
    (hd : t + d.length ≤ buf.length) (hP : P1 ≤ P)
    (h : ReadPost fs S1 P1 (buf.take t ++ d ++ buf.drop (t + d.length)) (t + d.length) r) :
    ReadPost fs (d ++ S1) P buf t r := by
  obtain ⟨cr', f', hr, hf, hc, hp, hpl, hrem, hopen⟩ := h
  have hlen : (buf.take t ++ d ++ buf.drop (t + d.length)).length = buf.length := by
    simp; omega
  have hm : min (buf.length - t) (d ++ S1).length =
      d.length + min (buf.length - (t + d.length)) S1.length := by
    simp only [List.length_append]; omega
  rw [hlen] at hr hrem hopen
  refine ⟨cr', f', ?_, hf, hc, hp, le_trans hpl hP, ?_, ?_⟩
  · rw [hr, hm]
    have e1 : List.take (t + d.length) (buf.take t ++ d ++ buf.drop (t + d.length)) =
        buf.take t ++ d := by
      rw [List.take_append_eq_append_take]
      have : (buf.take t ++ d).length = t + d.length := by simp; omega
      simp [this]
    have e2 : List.drop (t + d.length + min (buf.length - (t + d.length)) S1.length)
        (buf.take t ++ d ++ buf.drop (t + d.length)) =
        buf.drop (t + (d.length + min (buf.length - (t + d.length)) S1.length)) := by
      have : (buf.take t ++ d).length = t + d.length := by simp; omega
      rw [List.drop_append_eq_append_drop, this, List.drop_eq_nil_of_le (by omega)]
      simp only [List.nil_append, List.drop_drop]
      congr 1
      omega
    have e3 : List.take (d.length + min (buf.length - (t + d.length)) S1.length) (d ++ S1) =
        d ++ List.take (min (buf.length - (t + d.length)) S1.length) S1 := by
      rw [List.take_append]
    rw [e1, e2, e3]
    have e4 : (min (buf.length - (t + d.length)) S1.length = buf.length - (t + d.length)) ↔
        (d.length + min (buf.length - (t + d.length)) S1.length = buf.length - t) := by omega
    simp only [e4, List.append_assoc, Nat.add_assoc]
  · rw [hrem, hm, List.drop_append]
  · rw [hopen, hm]; omega

theorem remaining_of_file {fs : FS} {cr : ChunkReader} {f : OsFile}
    (hf : cr.curChunkFile = some f) :
    cr.remaining fs = ((fs f.path).getD []).drop f.off ++
      (chunkContents fs cr.chunkPaths.pending).flatten := by
  simp [ChunkReader.remaining, hf]

theorem readLoop_spec (fs : FS) (fuel : Nat) :
    ∀ (cr : ChunkReader) (buf : List Byte) (t : Nat) (f : OsFile),
      cr.curChunkFile = some f → cr.Live fs → t ≤ buf.length →
      (buf.length - t) + cr.chunkPaths.pending.length + 1 ≤ fuel →
      ReadPost fs (cr.remaining fs) cr.chunkPaths.pending.length buf t
        (cr.readLoop fs fuel buf t) := by
  induction fuel with
  | zero => intro cr buf t f hf hl ht hfuel; omega
  | succ fuel ih =>
    intro cr buf t f hf hl ht hfuel
    have hfo := hl.fileOpen f hf
    have hrem : cr.remaining fs = _ := remaining_of_file hf
    unfold ChunkReader.readLoop
    by_cases hlt : t < buf.length
    · have hwant : buf.length - t ≠ 0 := by omega
      simp only [hlt, if_true, hf, OsFile.Read, hfo, hwant, if_false, Bool.false_eq_true]
      by_cases hrest : ((fs f.path).getD []).drop f.off = []
      · simp only [hrest, if_true]
        rw [hrem, hrest]
        cases hpend : cr.chunkPaths.pending with
        | nil =>
          have hclosed := hl.closed
          simp only [ChunkReader.openNextChunk, OsFile.Close, hfo, RecvChan.recv, hpend, hclosed,
            if_true, if_false, Bool.false_eq_true]
          apply ReadPost_step fs _ [] buf 0 _ t _ (by simpa using ht) (le_refl _)
          refine ⟨{ cr with curChunkFile := some { f with closed := true } },
            { f with closed := true }, ?_, rfl, hclosed, ?_, ?_, ?_, ?_⟩
          · have : ¬ (0 = buf.length - t) := fun e => hwant e.symm
            simp [chunkContents, this]
          · simp [hpend]
          · simp [hpend]
          · simp [ChunkReader.remaining, hrest, hpend, chunkContents]
          · simp [chunkContents]; omega
        | cons p ps =>
          have hp : fs p ≠ none := hl.readable p (by simp [hpend])
          obtain ⟨c, hc⟩ := Option.ne_none_iff_exists'.1 hp
          simp only [ChunkReader.openNextChunk, OsFile.Close, hfo, RecvChan.recv, hpend,
            if_false, Bool.false_eq_true, osOpen, hc]
          have hl2 : ChunkReader.Live fs
              { chunkPaths := { pending := ps, closed := cr.chunkPaths.closed },
                curChunkFile := some { path := p, off := 0, closed := false },
                curChunkFileOffset := 0 } :=
            ⟨hl.closed, fun q hq => hl.readable q (by simp [hpend, hq]),
              fun g hg => by simp at hg; rw [← hg]⟩
          have := ih _ (buf.take t ++ [] ++ buf.drop (t + ([] : List Byte).length))
            (t + ([] : List Byte).length) _ rfl hl2 (by simpa using ht) (by
              simp only [List.length_nil, Nat.add_zero, List.append_nil, List.take_append_drop]
              rw [hpend] at hfuel
              simp only [List.length_cons] at hfuel
              omega)
          rw [remaining_of_file (f := { path := p, off := 0, closed := false }) rfl] at this
          apply ReadPost_step fs _ [] buf ps.length _ t _ (by simpa using ht) (by simp)
          simpa [chunkContents, hc] using this
      · simp only [hrest, if_false]
        rw [hrem]
        have hdlen : (List.take (buf.length - t) (List.drop f.off ((fs f.path).getD []))).length
            ≤ buf.length - t := by simp
        have hdpos : 0 < (List.take (buf.length - t)
            (List.drop f.off ((fs f.path).getD []))).length := by
          rw [List.length_take]
          have := List.length_pos.2 hrest
          omega
        have hsplit : List.drop f.off ((fs f.path).getD []) =
            List.take (buf.length - t) (List.drop f.off ((fs f.path).getD [])) ++
            List.drop (f.off + (List.take (buf.length - t)
              (List.drop f.off ((fs f.path).getD []))).length) ((fs f.path).getD []) := by
          rw [← List.drop_drop]
          rcases Nat.le_total (buf.length - t) (List.drop f.off ((fs f.path).getD [])).length
            with hle | hle
          · rw [List.length_take, Nat.min_eq_left hle, List.take_append_drop]
          · rw [List.take_of_length_le hle, List.drop_length, List.append_nil]
        generalize List.take (buf.length - t) (List.drop f.off ((fs f.path).getD [])) = d
          at hdlen hdpos hsplit ⊢
        have hl2 : ChunkReader.Live fs
            { chunkPaths := cr.chunkPaths,
              curChunkFile := some { path := f.path, off := f.off + d.length, closed := false },
              curChunkFileOffset := cr.curChunkFileOffset } :=
          ⟨hl.closed, hl.readable, fun g hg => by simp at hg; rw [← hg]⟩
        have := ih _ (buf.take t ++ d ++ buf.drop (t + d.length)) (t + d.length)
          _ rfl hl2 (by simp; omega) (by
            have : (buf.take t ++ d ++ buf.drop (t + d.length)).length = buf.length := by
              simp; omega
            rw [this]
            simp only at hfuel ⊢
            omega)
        rw [remaining_of_file (f := { path := f.path, off := f.off + d.length, closed := false })
          rfl] at this
        have key := ReadPost_step fs _ _ buf _ _ t _ (by omega) (le_refl _) this
        rw [← List.append_assoc, ← hsplit] at key
        exact key
    · have ht' : buf.length - t = 0 := by omega
      refine ⟨cr, f, ?_, hf, hl.closed, hl.readable, le_refl _, ?_, ?_⟩
      · simp [hlt, ht']
      · simp [ht']
      · simp [ht', hfo]

theorem Read_fresh_empty (fs : FS) (fuel : Nat) (cr : ChunkReader) (buf : List Byte)
    (hf : cr.curChunkFile = none) (hp : cr.chunkPaths.pending = [])
    (hc : cr.chunkPaths.closed = true) :
    cr.Read fs fuel buf = Except.ok ((0, some Err.eof), buf, cr) := by
  obtain ⟨ch, file, o⟩ := cr
  simp only at hf hp hc
  subst hf
  simp [ChunkReader.Read, ChunkReader.openNextChunk, RecvChan.recv, hp, hc]

theorem Read_spec (fs : FS) (fuel : Nat) (cr : ChunkReader) (buf : List Byte)
    (hl : cr.Live fs) (hfuel : buf.length + cr.chunkPaths.pending.length + 1 ≤ fuel)
    (hne : cr.curChunkFile ≠ none ∨ cr.chunkPaths.pending ≠ []) :
    ReadPost fs (cr.remaining fs) cr.chunkPaths.pending.length buf 0 (cr.Read fs fuel buf) := by
  unfold ChunkReader.Read
  cases hf : cr.curChunkFile with
  | some f =>
    simp only
    exact readLoop_spec fs fuel cr buf 0 f hf hl (Nat.zero_le _) (by omega)
  | none =>
    simp only
    cases hpend : cr.chunkPaths.pending with
    | nil => simp [hf, hpend] at hne
    | cons p ps =>
      have hp : fs p ≠ none := hl.readable p (by simp [hpend])
      obtain ⟨c, hc⟩ := Option.ne_none_iff_exists'.1 hp
      simp only [ChunkReader.openNextChunk, hf, RecvChan.recv, hpend, osOpen, hc]
      have hl2 : ChunkReader.Live fs
          { chunkPaths := { pending := ps, closed := cr.chunkPaths.closed },
            curChunkFile := some { path := p, off := 0, closed := false },
            curChunkFileOffset := 0 } :=
        ⟨hl.closed, fun q hq => hl.readable q (by simp [hpend, hq]),
          fun g hg => by simp at hg; rw [← hg]⟩
      have := readLoop_spec fs fuel _ buf 0 _ rfl hl2 (Nat.zero_le _) (by
        rw [hpend] at hfuel
        simp only [List.length_cons] at hfuel
        simp only
        omega)
      rw [remaining_of_file (f := { path := p, off := 0, closed := false }) rfl] at this
      have e : cr.remaining fs = [] ++ (c ++ (chunkContents fs ps).flatten) := by
        simp [ChunkReader.remaining, hf, hpend, chunkContents, hc]
      rw [e]
      apply ReadPost_step fs _ [] buf ps.length _ 0 _ (by simp) (by simp)
      simpa [chunkContents, hc] using this

theorem copyAll_spec (fs : FS) (size readFuel : Nat) (hsize : 0 < size) (fuel : Nat) :
    ∀ (cr : ChunkReader) (out : List Byte), cr.Live fs →
      size + cr.chunkPaths.pending.length + 1 ≤ readFuel →
      (cr.remaining fs).length + 1 ≤ fuel →
      copyAll fs size readFuel fuel cr out = Except.ok (out ++ cr.remaining fs, none) := by
  induction fuel with
  | zero => intro cr out hl hrf hfuel; omega
  | succ fuel ih =>
    intro cr out hl hrf hfuel
    unfold copyAll
    by_cases hne : cr.curChunkFile ≠ none ∨ cr.chunkPaths.pending ≠ []
    · obtain ⟨cr', f', hr, hf', hc', hp', hpl', hrem', hopen'⟩ :=
        Read_spec fs readFuel cr (List.replicate size 0) hl (by simpa using hrf) hne
      rw [hr]
      simp only [List.length_replicate, Nat.sub_zero, Nat.zero_add, List.take_zero,
        List.nil_append] at hrem' hopen' ⊢
      have htake : List.take (min size (cr.remaining fs).length)
          (List.take (min size (cr.remaining fs).length) (cr.remaining fs) ++
            List.drop (min size (cr.remaining fs).length) (List.replicate size (0 : Byte))) =
          List.take (min size (cr.remaining fs).length) (cr.remaining fs) := by
        rw [List.take_append_of_le_length (by simp)]
        simp
      rw [htake]
      by_cases hm : min size (cr.remaining fs).length = size
      · simp only [hm, if_true]
        have hl' : cr'.Live fs := ⟨hc', hp', fun g hg => by
          rw [hf'] at hg
          simp only [Option.some.injEq] at hg
          rw [← hg]; exact hopen'.2 hm⟩
        rw [ih cr' _ hl' (by omega) (by rw [hrem', hm, List.length_drop]; omega), hrem', hm,
          List.append_assoc, List.take_append_drop]
      · simp only [hm, if_false]
        have : min size (cr.remaining fs).length = (cr.remaining fs).length := by omega
        rw [this, List.take_length]
    · have hf : cr.curChunkFile = none := by
        by_contra h; exact hne (Or.inl h)
      have hp : cr.chunkPaths.pending = [] := by
        by_contra h; exact hne (Or.inr h)
      rw [Read_fresh_empty fs readFuel cr _ hf hp hl.closed]
      simp [ChunkReader.remaining, hf, hp, chunkContents]

/-! ## Chunk paths after arbitrary calls -/

theorem chunkDone_ok {sw sw' : ChunkWriter} {p : String} (h : sw.chunkDone p = Except.ok sw') :
    sw'.chunkPaths = sw.chunkPaths ++ [p] ∧ sw'.chunkPathPrefix = sw.chunkPathPrefix ∧
      sw'.curChunkFile = sw.curChunkFile ∧ sw'.curChunkPath = sw.curChunkPath := by
  unfold ChunkWriter.chunkDone at h
  split at h
  · split at h
    · simp at h
    · simp only [Except.ok.injEq] at h
      subst h
      simp
  · simp only [Except.ok.injEq] at h
    subst h
    simp

theorem fileWrite_fields (sw : ChunkWriter) (fs : FS) (b : List Byte) :
    (sw.fileWrite fs b).2.1.chunkPaths = sw.chunkPaths ∧
    (sw.fileWrite fs b).2.1.chunkPathPrefix = sw.chunkPathPrefix ∧
    (sw.fileWrite fs b).2.1.curChunkPath = sw.curChunkPath ∧
    (∀ f, sw.curChunkFile = some f → ∃ f', (sw.fileWrite fs b).2.1.curChunkFile = some f' ∧
      f'.closed = f.closed) := by
  unfold ChunkWriter.fileWrite
  cases hf : sw.curChunkFile with
  | none => simp [hf]
  | some f =>
    simp only [OsFile.Write]
    by_cases hc : f.closed = true
    · simp [hc]
    · simp [hc]

theorem PathInv_append {pfx : String} {sw sw' : ChunkWriter} (hi : PathInv pfx sw)
    (hp : sw'.chunkPathPrefix = sw.chunkPathPrefix)
    (hpaths : sw'.chunkPaths = sw.chunkPaths ++ [chunkPathOf pfx sw.chunkPaths.length])
    (hfile : ∃ f, sw'.curChunkFile = some f ∧
      (f.closed = false → sw'.curChunkPath = chunkPathOf pfx sw'.chunkPaths.length)) :
    PathInv pfx sw' := by
  refine ⟨hp.trans hi.pfx_eq, ?_, hfile⟩
  rw [hpaths]
  simp only [List.length_append, List.length_singleton, List.range_succ, List.map_append,
    List.map_cons, List.map_nil]
  rw [← hi.paths]

theorem PathInv_openNextChunk {pfx : String} {sw sw' : ChunkWriter} {fs fs' : FS}
    {e : Option Err} (hi : PathInv pfx sw)
    (h : sw.openNextChunk fs = Except.ok (e, sw', fs')) : PathInv pfx sw' := by
  obtain ⟨f, hf, hcur⟩ := hi.file
  unfold ChunkWriter.openNextChunk at h
  simp only [hf, OsFile.Close] at h
  by_cases hc : f.closed = true
  · simp only [hc, if_true, Except.ok.injEq, Prod.mk.injEq] at h
    obtain ⟨-, rfl, -⟩ := h
    exact hi
  · have hc' : f.closed = false := by simpa using hc
    simp only [hc', Bool.false_eq_true, if_false] at h
    cases hd : ChunkWriter.chunkDone
        { sw with curChunkFile := some { f with closed := true } } sw.curChunkPath with
    | error p => simp [hd] at h
    | ok sw1 =>
      obtain ⟨h1, h2, h3, h4⟩ := chunkDone_ok hd
      simp only [hd, osOpenFile, Except.ok.injEq, Prod.mk.injEq] at h
      obtain ⟨-, rfl, -⟩ := h
      refine PathInv_append hi h2 ?_ ⟨_, rfl, fun _ => ?_⟩
      · simp only [h1]
        rw [hcur hc']
      · simp only [h2]
        rw [hi.pfx_eq]

theorem PathInv_fileWrite {pfx : String} {sw : ChunkWriter} (fs : FS) (b : List Byte)
    (hi : PathInv pfx sw) : PathInv pfx (sw.fileWrite fs b).2.1 := by
  obtain ⟨h1, h2, h3, h4⟩ := fileWrite_fields sw fs b
  obtain ⟨f, hf, hcur⟩ := hi.file
  obtain ⟨f', hf', hc'⟩ := h4 f hf
  refine ⟨h2.trans hi.pfx_eq, ?_, ⟨f', hf', fun hc => ?_⟩⟩
  · rw [h1]; exact hi.paths
  · rw [h3, h1]; exact hcur (hc' ▸ hc)

theorem PathInv_size {pfx : String} {sw : ChunkWriter} (x : Int) (hi : PathInv pfx sw) :
    PathInv pfx { sw with curChunkSize := x } :=
  ⟨hi.pfx_eq, hi.paths, hi.file⟩

theorem PathInv_Write {pfx : String} {sw sw' : ChunkWriter} {fs fs' : FS} {buf : List Byte}
    {r : Nat × Option Err} (hi : PathInv pfx sw)
    (h : sw.Write fs buf = Except.ok (r, sw', fs')) : PathInv pfx sw' := by
  unfold ChunkWriter.Write at h
  split at h
  · simp only at h
    split at h
    · simp at h
    · have hw := PathInv_fileWrite fs (buf.take (sw.maxChunkSize - sw.curChunkSize).toNat) hi
      revert h hw
      generalize sw.fileWrite fs (buf.take (sw.maxChunkSize - sw.curChunkSize).toNat) = w
      obtain ⟨⟨n1, e1⟩, sw1, fs1⟩ := w
      intro h hw
      simp only at hw
      cases e1 with
      | some e =>
        simp only [Except.ok.injEq, Prod.mk.injEq] at h
        obtain ⟨-, rfl, -⟩ := h
        exact hw
      | none =>
        simp only at h
        cases ho : sw1.openNextChunk fs1 with
        | error p => simp [ho] at h
        | ok res =>
          obtain ⟨e2, sw2, fs2⟩ := res
          have hi2 := PathInv_openNextChunk hw ho
          cases e2 with
          | some e =>
            simp only [ho, Except.ok.injEq, Prod.mk.injEq] at h
            obtain ⟨-, rfl, -⟩ := h
            exact hi2
          | none =>
            simp only [ho, Except.ok.injEq, Prod.mk.injEq] at h
            obtain ⟨-, rfl, -⟩ := h
            exact PathInv_size _ (PathInv_fileWrite fs2 _ hi2)
  · simp only [Except.ok.injEq, Prod.mk.injEq] at h
    obtain ⟨-, rfl, -⟩ := h
    exact PathInv_size _ (PathInv_fileWrite fs buf hi)

theorem closeChunksWritten_ok {sw sw' : ChunkWriter} (h : sw.closeChunksWritten = Except.ok sw') :
    sw'.chunkPaths = sw.chunkPaths ∧ sw'.chunkPathPrefix = sw.chunkPathPrefix ∧
      sw'.curChunkFile = sw.curChunkFile ∧ sw'.curChunkPath = sw.curChunkPath := by
  unfold ChunkWriter.closeChunksWritten at h
  split at h
  · simp at h
  · split at h
    · simp at h
    · simp only [Except.ok.injEq] at h
      subst h
      simp

theorem PathInv_Close {pfx : String} {sw sw' : ChunkWriter} {e : Option Err}
    (hi : PathInv pfx sw) (h : sw.Close = Except.ok (e, sw')) : PathInv pfx sw' := by
  obtain ⟨f, hf, hcur⟩ := hi.file
  unfold ChunkWriter.Close at h
  simp only [hf, OsFile.Close] at h
  by_cases hc : f.closed = true
  · simp only [hc, if_true] at h
    cases hd : sw.closeChunksWritten with
    | error p => simp [hd] at h
    | ok sw2 =>
      obtain ⟨h1, h2, h3, h4⟩ := closeChunksWritten_ok hd
      simp only [hd, Except.ok.injEq, Prod.mk.injEq] at h
      obtain ⟨-, rfl⟩ := h
      refine ⟨h2.trans hi.pfx_eq, ?_, ⟨f, h3.trans hf, fun hc' => ?_⟩⟩
      · rw [h1]; exact hi.paths
      · rw [hc] at hc'; cases hc'
  · have hc' : f.closed = false := by simpa using hc
    simp only [hc', Bool.false_eq_true, if_false] at h
    cases hd : ChunkWriter.chunkDone
        { sw with curChunkFile := some { f with closed := true } } sw.curChunkPath with
    | error p => simp [hd] at h
    | ok sw1 =>
      obtain ⟨h1, h2, h3, h4⟩ := chunkDone_ok hd
      simp only [hd] at h
      cases hd2 : sw1.closeChunksWritten with
      | error p => simp [hd2] at h
      | ok sw2 =>
        obtain ⟨k1, k2, k3, k4⟩ := closeChunksWritten_ok hd2
        simp only [hd2, Except.ok.injEq, Prod.mk.injEq] at h
        obtain ⟨-, rfl⟩ := h
        refine PathInv_append hi (k2.trans h2) ?_
          ⟨{ f with closed := true }, k3.trans h3, fun hx => by simp at hx⟩
        rw [k1, h1]
        simp only
        rw [hcur hc']

theorem PathInv_new {pfx : String} {M : Int} {ch : Option Chan} {fs fs1 : FS} {e : Option Err}
    {sw : ChunkWriter} (h : NewChunkWriter pfx M ch fs = Except.ok (e, sw, fs1)) :
    PathInv pfx sw := by
  simp only [NewChunkWriter, ChunkWriter.openNextChunk, osOpenFile, Except.ok.injEq,
    Prod.mk.injEq] at h
  obtain ⟨-, rfl, -⟩ := h
  exact ⟨rfl, rfl, ⟨_, rfl, fun _ => rfl⟩⟩

theorem PathInv_calls {pfx : String} (cs : List Call) :
    ∀ {sw sw' : ChunkWriter} {fs fs' : FS}, PathInv pfx sw →
      sw.calls fs cs = Except.ok (sw', fs') → PathInv pfx sw' := by
  induction cs with
  | nil =>
    intro sw sw' fs fs' hi h
    simp only [ChunkWriter.calls, Except.ok.injEq, Prod.mk.injEq] at h
    exact h.1 ▸ hi
  | cons c cs ih =>
    intro sw sw' fs fs' hi h
    unfold ChunkWriter.calls at h
    cases hc : sw.call fs c with
    | error p => simp [hc] at h
    | ok res =>
      obtain ⟨sw1, fs1⟩ := res
      simp only [hc] at h
      refine ih ?_ h
      cases c with
      | write buf =>
        unfold ChunkWriter.call at hc
        cases hw : sw.Write fs buf with
        | error p => simp [hw] at hc
        | ok res =>
          obtain ⟨r, sw2, fs2⟩ := res
          simp only [hw, Except.ok.injEq, Prod.mk.injEq] at hc
          exact hc.1 ▸ PathInv_Write hi hw
      | close =>
        unfold ChunkWriter.call at hc
        cases hw : sw.Close with
        | error p => simp [hw] at hc
        | ok res =>
          obtain ⟨r, sw2⟩ := res
          simp only [hw, Except.ok.injEq, Prod.mk.injEq] at hc
          exact hc.1 ▸ PathInv_Close hi hw

/-! ## The coordinator -/

theorem heap_set_same (h : Heap) (c : ChanId) (ch : Chan) : (h.set c ch) c = ch := by
  simp [Heap.set]

theorem heap_set_other (h : Heap) {c d : ChanId} (ch : Chan) (hd : d ≠ c) :
    (h.set c ch) d = h d := by
  simp [Heap.set, hd]

theorem sendPaths_spec (c : ChanId) (paths : List String) :
    ∀ h : Heap, (h c).closed = false →
      ∃ h', sendPaths c paths h = Except.ok h' ∧
        h' c = { sent := (h c).sent ++ paths, closed := false } ∧
        ∀ d, d ≠ c → h' d = h d := by
  induction paths with
  | nil =>
    intro h hc
    refine ⟨h, rfl, ?_, fun _ _ => rfl⟩
    cases hh : h c with
    | mk s cl =>
      rw [hh] at hc
      simp only at hc
      simp [hc]
  | cons p ps ih =>
    intro h hc
    simp only [sendPaths, Heap.send, hc, Bool.false_eq_true, if_false]
    obtain ⟨h', h1, h2, h3⟩ := ih (h.set c { sent := (h c).sent ++ [p], closed := false })
      (by rw [heap_set_same])
    refine ⟨h', h1, ?_, ?_⟩
    · rw [h2, heap_set_same]; simp
    · intro d hd
      rw [h3 d hd, heap_set_other _ _ hd]

theorem sendToAll_spec (filePath : String) (cs : List ChanId) :
    ∀ h : Heap, cs.Nodup → (∀ c, c ∈ cs → (h c).closed = false) →
      ∃ h', sendToAll filePath cs h = Except.ok h' ∧
        (∀ c, c ∈ cs → h' c = { sent := (h c).sent ++ [filePath], closed := false }) ∧
        ∀ d, d ∉ cs → h' d = h d := by
  induction cs with
  | nil =>
    intro h _ _
    exact ⟨h, rfl, fun c hc => by simp at hc, fun _ _ => rfl⟩
  | cons c cs ih =>
    intro h hnd hopen
    have hc := hopen c (by simp)
    obtain ⟨hnot, hnd'⟩ := List.nodup_cons.1 hnd
    simp only [sendToAll, Heap.send, hc, Bool.false_eq_true, if_false]
    obtain ⟨h', h1, h2, h3⟩ := ih (h.set c { sent := (h c).sent ++ [filePath], closed := false }) hnd'
      (fun d hd => by
        have : d ≠ c := fun e => hnot (e ▸ hd)
        rw [heap_set_other _ _ this]
        exact hopen d (by simp [hd]))
    refine ⟨h', h1, ?_, ?_⟩
    · intro d hd
      rcases List.mem_cons.1 hd with rfl | hd'
      · rw [h3 d hnot, heap_set_same]
      · have : d ≠ c := fun e => hnot (e ▸ hd')
        rw [h2 d hd', heap_set_other _ _ this]
    · intro d hd
      have hdc : d ≠ c := fun e => hd (by simp [e])
      have hd' : d ∉ cs := fun e => hd (by simp [e])
      rw [h3 d hd', heap_set_other _ _ hdc]

theorem closeAll_spec (cs : List ChanId) :
    ∀ h : Heap, cs.Nodup → (∀ c, c ∈ cs → (h c).closed = false) →
      ∃ h', closeAll cs h = Except.ok h' ∧
        (∀ c, c ∈ cs → h' c = { sent := (h c).sent, closed := true }) ∧
        ∀ d, d ∉ cs → h' d = h d := by
  induction cs with
  | nil =>
    intro h _ _
    exact ⟨h, rfl, fun c hc => by simp at hc, fun _ _ => rfl⟩
  | cons c cs ih =>
    intro h hnd hopen
    have hc := hopen c (by simp)
    obtain ⟨hnot, hnd'⟩ := List.nodup_cons.1 hnd
    simp only [closeAll, Heap.close, hc, Bool.false_eq_true, if_false]
    obtain ⟨h', h1, h2, h3⟩ := ih (h.set c { h c with closed := true }) hnd'
      (fun d hd => by
        have : d ≠ c := fun e => hnot (e ▸ hd)
        rw [heap_set_other _ _ this]
        exact hopen d (by simp [hd]))
    refine ⟨h', h1, ?_, ?_⟩
    · intro d hd
      rcases List.mem_cons.1 hd with rfl | hd'
      · rw [h3 d hnot, heap_set_same]
      · have : d ≠ c := fun e => hnot (e ▸ hd')
        rw [h2 d hd', heap_set_other _ _ this]
    · intro d hd
      have hdc : d ≠ c := fun e => hd (by simp [e])
      have hd' : d ∉ cs := fun e => hd (by simp [e])
      rw [h3 d hd', heap_set_other _ _ hdc]

theorem run_append (a b : List Event) : ∀ (co : Coordinator) (h : Heap),
    co.run h (a ++ b) =
      match co.run h a with
      | Except.error p => Except.error p
      | Except.ok (co1, h1) => co1.run h1 b := by
  induction a with
  | nil => intro co h; simp [Coordinator.run]
  | cons ev rest ih =>
    intro co h
    simp only [List.cons_append, Coordinator.run]
    cases hs : co.step h ev with
    | error p => simp
    | ok res =>
      obtain ⟨co1, h1⟩ := res
      simp only
      exact ih co1 h1

theorem run_inv (evs : List Event) : ∀ (co : Coordinator) (h : Heap),
    co.returned = false → Event.closed ∉ evs →
    (co.chunkConsumers ++ attached evs).Nodup →
    (∀ c, c ∈ co.chunkConsumers → h c = { sent := co.chunkPaths, closed := false }) →
    (∀ c, c ∈ attached evs → h c = { sent := [], closed := false }) →
    ∃ co' h', co.run h evs = Except.ok (co', h') ∧ co'.returned = false ∧
      co'.chunkPaths = co.chunkPaths ++ published evs ∧
      co'.chunkConsumers = co.chunkConsumers ++ attached evs ∧
      (∀ c, c ∈ co'.chunkConsumers → h' c = { sent := co'.chunkPaths, closed := false }) ∧
      (∀ d, d ∉ co'.chunkConsumers → h' d = h d) := by
  induction evs with
  | nil =>
    intro co h hr _ _ hcons _
    exact ⟨co, h, rfl, hr, by simp [published], by simp [attached], hcons, fun _ _ => rfl⟩
  | cons ev rest ih =>
    intro co h hr hcl hnd hcons hfresh
    have hcl' : Event.closed ∉ rest := fun e => hcl (by simp [e])
    cases ev with
    | consumer c =>
      simp only [attached] at hnd hfresh
      have hc0 : h c = { sent := [], closed := false } := hfresh c (by simp)
      obtain ⟨h1, e1, e2, e3⟩ := sendPaths_spec c co.chunkPaths h (by rw [hc0])
      have hnd' : (co.chunkConsumers ++ [c] ++ attached rest).Nodup := by
        simpa [List.append_assoc] using hnd
      have hcnot : c ∉ co.chunkConsumers := by
        intro hm
        have := (List.nodup_append.1 hnd).2.2
        exact this hm (by simp)
      have hcnot' : c ∉ attached rest := by
        have := (List.nodup_append.1 hnd).2.1
        exact (List.nodup_cons.1 this).1
      obtain ⟨co', h', r1, r2, r3, r4, r5, r6⟩ :=
        ih { co with chunkConsumers := co.chunkConsumers ++ [c] } h1 hr hcl' hnd'
          (fun d hd => by
            simp only [List.mem_append, List.mem_singleton] at hd
            rcases hd with hd | rfl
            · have : d ≠ c := fun e => hcnot (e ▸ hd)
              rw [e3 d this]
              exact hcons d hd
            · rw [e2, hc0]; simp)
          (fun d hd => by
            have : d ≠ c := fun e => hcnot' (e ▸ hd)
            rw [e3 d this]
            exact hfresh d (by simp [hd]))
      refine ⟨co', h', ?_, r2, ?_, ?_, r5, ?_⟩
      · simp only [Coordinator.run, Coordinator.step, hr, Bool.false_eq_true, if_false, e1]
        rw [← hr]
        exact r1
      · simpa [published] using r3
      · simpa [attached, List.append_assoc] using r4
      · intro d hd
        have hd' : d ∉ co.chunkConsumers ++ [c] := by
          rw [r4] at hd
          intro hm
          exact hd (List.mem_append_left _ hm)
        have : d ≠ c := fun e => hd' (by simp [e])
        rw [r6 d hd, e3 d this]
    | chunk p =>
      simp only [attached] at hnd hfresh
      have hndc : co.chunkConsumers.Nodup := (List.nodup_append.1 hnd).1
      obtain ⟨h1, e1, e2, e3⟩ := sendToAll_spec p co.chunkConsumers h hndc
        (fun d hd => by rw [hcons d hd])
      obtain ⟨co', h', r1, r2, r3, r4, r5, r6⟩ :=
        ih { co with chunkPaths := co.chunkPaths ++ [p] } h1 hr hcl' hnd
          (fun d hd => by rw [e2 d hd, hcons d hd])
          (fun d hd => by
            have : d ∉ co.chunkConsumers := fun hm => (List.nodup_append.1 hnd).2.2 hm hd
            rw [e3 d this]
            exact hfresh d hd)
      refine ⟨co', h', ?_, r2, ?_, ?_, r5, ?_⟩
      · simp only [Coordinator.run, Coordinator.step, hr, Bool.false_eq_true, if_false, e1]
        rw [← hr]
        exact r1
      · simpa [published, List.append_assoc] using r3
      · simpa [attached] using r4
      · intro d hd
        have hd' : d ∉ co.chunkConsumers := by
          rw [r4] at hd
          intro hm
          exact hd (List.mem_append_left _ hm)
        rw [r6 d hd, e3 d hd']
    | closed => simp at hcl

/-! ## The claims -/

theorem session_some {pfx : String} {M : Int} {fs0 : FS} {bs : List (List Byte)}
    {sw : ChunkWriter} {fs : FS} (h : session pfx M fs0 bs = some (sw, fs)) :
    ∃ sw0, writerAfter pfx M fs0 bs = some (sw0, fs) ∧ sw0.Close = Except.ok (none, sw) := by
  unfold session at h
  split at h
  · rename_i sw0 fs1 heq
    split at h
    · rename_i sw1 hc
      simp only [Option.some.injEq, Prod.mk.injEq] at h
      obtain ⟨rfl, rfl⟩ := h
      exact ⟨sw0, heq, hc⟩
    · simp at h
  · simp at h

theorem session_paths {pfx : String} {M : Int} {fs0 : FS} {bs : List (List Byte)}
    {sw : ChunkWriter} {fs : FS} (h : session pfx M fs0 bs = some (sw, fs)) :
    ∃ sw0, writerAfter pfx M fs0 bs = some (sw0, fs) ∧
      sw.FilePaths = (List.range (sw0.chunkPaths.length + 1)).map (chunkPathOf pfx) := by
  obtain ⟨sw0, h0, hc⟩ := session_some h
  have hi := WInv_writerAfter h0
  obtain ⟨f, ch, -, -, -, -, hclose⟩ := Close_of_WInv hi
  rw [hclose] at hc
  simp only [Except.ok.injEq, Prod.mk.injEq, true_and] at hc
  refine ⟨sw0, h0, ?_⟩
  rw [← hc]
  simp only [ChunkWriter.FilePaths, List.range_succ, List.map_append, List.map_cons, List.map_nil]
  rw [← hi.paths, hi.cur]

/-- C1 (round trip).  On storage whose chunk files start empty, a fresh
writer that took `Write(b1) .. Write(bn)`, each returning a nil error, and was
then closed has produced files which a `ChunkReader` over `FilePaths()`, sent in
order on a channel that is then closed, and read until end-of-stream with any
non-empty buffer, delivers as exactly `b1 ++ ... ++ bn`; the copy loop ends
without an error given fuel for the calls it makes.  This holds for every
`maxChunkSize`. -/
theorem C1_round_trip (pfx : String) (M : Int) (fs0 : FS) (bs : List (List Byte))
    (sw : ChunkWriter) (fs : FS) (size readFuel fuel : Nat)
    (hfs : ∀ k, (fs0 (chunkPathOf pfx k)).getD [] = [])
    (hrun : session pfx M fs0 bs = some (sw, fs))
    (hsize : 0 < size)
    (hrf : size + sw.FilePaths.length + 1 ≤ readFuel)
    (hfuel : bs.flatten.length + 1 ≤ fuel) :
    copyAll fs size readFuel fuel (NewChunkReader { pending := sw.FilePaths, closed := true }) [] =
      Except.ok (bs.flatten, none) := by
  obtain ⟨sw0, h0, hpaths⟩ := session_paths hrun
  have hs := FsInv_writerAfter hfs h0
  have hl : (NewChunkReader { pending := sw.FilePaths, closed := true }).Live fs := by
    refine ⟨rfl, ?_, ?_⟩
    · intro p hp
      simp only [NewChunkReader, hpaths, List.mem_map, List.mem_range] at hp
      obtain ⟨k, hk, rfl⟩ := hp
      exact hs.exist k (by omega)
    · intro f hf
      simp [NewChunkReader] at hf
  have hrem : (NewChunkReader { pending := sw.FilePaths, closed := true }).remaining fs =
      bs.flatten := by
    simp only [ChunkReader.remaining, NewChunkReader, List.nil_append, hpaths]
    exact hs.content
  have := copyAll_spec fs size readFuel hsize fuel _ [] hl (by simpa [NewChunkReader] using hrf)
    (by rw [hrem]; exact hfuel)
  rw [this, hrem]
  simp

theorem C1_round_trip_witness :
    session "p" 4 emptyFS [[1, 2, 3], [4, 5]] = some (sampleSession.1, sampleSession.2) ∧
    copyAll sampleSession.2 2 5 6
      (NewChunkReader { pending := sampleSession.1.FilePaths, closed := true }) [] =
      Except.ok ([1, 2, 3, 4, 5], none) :=
  ⟨rfl, C1_round_trip "p" 4 emptyFS [[1, 2, 3], [4, 5]] sampleSession.1 sampleSession.2 2 5 6
    (fun _ => rfl) rfl (by decide) (by decide) (by decide)⟩

/-- C2 (exactly-once in-order fan-out).  For every serialized sequence of
attach and publish events ended by the closing of `chunksComplete`, with the
attached channels pairwise distinct, freshly made and never blocking, the
coordinator returns having recorded every published path, and every attached
subscriber `c` has received exactly the published paths, each once, in publish
order, on a channel that is then closed. -/
theorem C2_fan_out (evs : List Event) (h : Heap) (c : ChanId)
    (hcl : Event.closed ∉ evs) (hnd : (attached evs).Nodup)
    (hfresh : ∀ d, d ∈ attached evs → h d = { sent := [], closed := false })
    (hc : c ∈ attached evs) :
    Except.map (fun r => (r.1, r.2 c)) (handleNewChunkConsumers (evs ++ [Event.closed]) h) =
      Except.ok
        ({ chunkPaths := published evs, chunkConsumers := attached evs, returned := true },
          { sent := published evs, closed := true }) := by
  obtain ⟨co, h1, r1, r2, r3, r4, r5, r6⟩ :=
    run_inv evs { chunkPaths := [], chunkConsumers := [], returned := false } h rfl hcl
      (by simpa using hnd) (fun d hd => by simp at hd) hfresh
  simp only [List.nil_append] at r3 r4
  obtain ⟨h2, e1, e2, e3⟩ := closeAll_spec co.chunkConsumers h1 (r4 ▸ hnd)
    (fun d hd => by rw [r5 d hd])
  rw [handleNewChunkConsumers, run_append, r1]
  simp only [Coordinator.run, Coordinator.step, r2, Bool.false_eq_true, if_false, e1,
    Except.map]
  rw [e2 c (r4 ▸ hc), r5 c (r4 ▸ hc)]
  obtain ⟨p, cs, r⟩ := co
  simp only at r2 r3 r4
  subst r2 r3 r4
  rfl

theorem C2_fan_out_witness :
    Except.map (fun r => (r.1, r.2 1))
      (handleNewChunkConsumers
        ([Event.consumer 0, Event.chunk "a", Event.consumer 1, Event.chunk "b"] ++ [Event.closed])
        freshHeap) =
      Except.ok
        ({ chunkPaths := ["a", "b"], chunkConsumers := [0, 1], returned := true },
          { sent := ["a", "b"], closed := true }) :=
  C2_fan_out [Event.consumer 0, Event.chunk "a", Event.consumer 1, Event.chunk "b"] freshHeap 1
    (by decide) (by decide) (fun _ _ => rfl) (by decide)

/-- C3 (chunk size bound), evaluated where the code breaks it: with
`maxChunkSize = 10` a single `Write` of 25 bytes on a fresh writer, then
`Close`, leaves chunks of 10 and 15 bytes. -/
theorem C3_chunk_exceeds_max :
    (session "p" 10 emptyFS [List.replicate 25 65]).map
      (fun r => (chunkContents r.2 r.1.FilePaths).map List.length) = some [10, 15] := by
  decide

/-- C4 (chunking equals the reference split), evaluated where the code breaks
it: with `maxChunkSize = 10`, three `Write` calls of 6 bytes and `Close` leave
three chunks of 10, 6 and 2 bytes, where 18 bytes split at 10 give two chunks
of 10 and 8. -/
theorem C4_chunks_not_reference_split :
    (session "p" 10 emptyFS [List.replicate 6 65, List.replicate 6 66, List.replicate 6 67]).map
      (fun r => (chunkContents r.2 r.1.FilePaths).map List.length) = some [10, 6, 2] := by
  decide

/-- C6 (Write accepts any number of bytes), evaluated where the code breaks
it: with `maxChunkSize = 10`, after a `Write` of 25 bytes has returned
`(25, nil)` the writer counts 25 bytes in its current chunk, and the next
`Write`, of one byte, panics on the slice bound `buf[:-15]`. -/
theorem C6_write_panics :
    (writerAfter "p" 10 emptyFS [List.replicate 25 65]).map
      (fun r => (r.1.curChunkSize, Except.map (fun x => x.1) (r.1.Write r.2 [1]))) =
      some (25, Except.error Panic.sliceBounds) := by
  decide

theorem downloadAttach_done (req : request) (h : Heap) (fresh : ChanId) (hd : req.Done = true) :
    Except.map (Option.map (fun r => (r.1, r.2 fresh))) (downloadAttach req h fresh) =
      Except.ok (some (req, { sent := req.chunkPaths, closed := true })) := by
  obtain ⟨h1, e1, e2, -⟩ := sendPaths_spec fresh req.chunkPaths
    (h.set fresh { sent := [], closed := false }) (by rw [heap_set_same])
  simp only [downloadAttach, hd, Bool.not_true, Bool.false_eq_true, if_false, e1, Heap.close, e2,
    Except.map, Option.map, heap_set_same, heap_set_same, List.nil_append]

/-- C5 (late attach), evaluated where the code breaks it.  A fresh writer is
closed at once and the coordinator handles the one path and the closing of
`chunksComplete`: it has returned and the history is `["p_000.bin"]`, but line
184 has not run yet, so `req.chunkPaths` is still empty.  A download attaching
now finds `Done()` false and is put on `chunkPathConsumers`; the coordinator,
having returned, does not receive it; its channel holds nothing and stays
open, so the `Read` of its `ChunkReader` waits.  The sibling branch, taken once
line 184 has recorded the paths, fills the channel of the same download with
the whole history and closes it. -/
theorem C5_attach_before_record_waits :
    (uploadClosed "p" 10 emptyFS [] freshHeap).map
      (fun r => (r.2.1.returned, r.2.1.chunkPaths, r.1.FilePaths)) =
      some (true, ["p_000.bin"], ["p_000.bin"]) ∧
    (uploadClosed "p" 10 emptyFS [] freshHeap).map
      (fun r => Except.map (Option.map (fun x => (x.1, x.2 0)))
        (downloadAttach { chunkPathConsumers := [], chunkPaths := [] } r.2.2 0)) =
      some (Except.ok (some ({ chunkPathConsumers := [0], chunkPaths := [] },
        { sent := [], closed := false }))) ∧
    (uploadClosed "p" 10 emptyFS [] freshHeap).map
      (fun r => Except.map (fun x => (x.1, x.2 0))
        (r.2.1.step (r.2.2.set 0 { sent := [], closed := false }) (Event.consumer 0))) =
      some (Except.ok ({ chunkPaths := ["p_000.bin"], chunkConsumers := [], returned := true },
        { sent := [], closed := false })) ∧
    (session "p" 10 emptyFS []).map
      (fun r => (NewChunkReader { pending := [], closed := false }).Read r.2 1 [0]) =
      some (Except.error Stop.blocked) ∧
    (uploadClosed "p" 10 emptyFS [] freshHeap).map
      (fun r => Except.map (Option.map (fun x => (x.1, x.2 0)))
        (downloadAttach { chunkPathConsumers := [], chunkPaths := r.1.FilePaths } r.2.2 0)) =
      some (Except.ok (some ({ chunkPathConsumers := [], chunkPaths := ["p_000.bin"] },
        { sent := ["p_000.bin"], closed := true }))) := by
  refine ⟨by decide, by decide, by decide, by decide, by decide⟩

/-- C7 as stated fails for an empty destination: a fresh reader over the empty
closed sequence, asked to fill a buffer of length 0, returns
`(0, end-of-stream)`, although `n = len(buf)` was reached. -/
theorem C7_counterexample :
    (NewChunkReader { pending := [], closed := true }).Read emptyFS 1 [] =
      Except.ok ((0, some Err.eof), [], NewChunkReader { pending := [], closed := true }) ∧
    (0 : Nat) = ([] : List Byte).length := by
  decide

/-- C7, amended (Read fills the destination across chunk boundaries).  For a
reader over a closed sequence of readable chunks that has not yet returned
end-of-stream, and a buffer that is non-empty unless the reader has a chunk
open or pending, `Read` (given fuel for its loop) returns
`n = min(len(buf), bytes remaining)`, leaves the next `n` bytes of the
concatenated stream in `buf[:n]` and the rest of `buf` untouched, returns a
nil error exactly when `n = len(buf)` and end-of-stream otherwise, and the
reader is left with the rest of the stream ahead of it. -/
theorem C7_read_fills (fs : FS) (fuel : Nat) (cr : ChunkReader) (buf : List Byte)
    (hl : cr.Live fs) (hfuel : buf.length + cr.chunkPaths.pending.length + 1 ≤ fuel)
    (hne : buf ≠ [] ∨ cr.curChunkFile ≠ none ∨ cr.chunkPaths.pending ≠ []) :
    Except.map (fun r => (r.1, r.2.1, r.2.2.remaining fs)) (cr.Read fs fuel buf) =
      Except.ok
        ((min buf.length (cr.remaining fs).length,
          if min buf.length (cr.remaining fs).length = buf.length then none else some Err.eof),
         (cr.remaining fs).take (min buf.length (cr.remaining fs).length) ++
           buf.drop (min buf.length (cr.remaining fs).length),
         (cr.remaining fs).drop (min buf.length (cr.remaining fs).length)) := by
  by_cases hne' : cr.curChunkFile ≠ none ∨ cr.chunkPaths.pending ≠ []
  · obtain ⟨cr', f', hr, -, -, -, -, hrem, -⟩ := Read_spec fs fuel cr buf hl hfuel hne'
    rw [hr]
    simp only [Except.map, Nat.sub_zero, Nat.zero_add, List.take_zero, List.nil_append] at hrem ⊢
    rw [hrem]
  · have hf : cr.curChunkFile = none := by
      by_contra h; exact hne' (Or.inl h)
    have hp : cr.chunkPaths.pending = [] := by
      by_contra h; exact hne' (Or.inr h)
    have hb : buf ≠ [] := by
      rcases hne with h | h | h
      · exact h
      · exact absurd hf h
      · exact absurd hp h
    have hb' : ¬ (0 = buf.length) := fun e => hb (List.length_eq_zero.1 e.symm)
    rw [Read_fresh_empty fs fuel cr buf hf hp hl.closed]
    simp [Except.map, ChunkReader.remaining, hf, hp, chunkContents, hb']

theorem C7_read_fills_witness :
    Except.map (fun r => (r.1, r.2.1, r.2.2.remaining (fsOf [("a", [1, 2, 3]), ("b", []), ("c", [4, 5])])))
      ((NewChunkReader { pending := ["a", "b", "c"], closed := true }).Read
        (fsOf [("a", [1, 2, 3]), ("b", []), ("c", [4, 5])]) 8 [0, 0, 0, 0]) =
      Except.ok ((4, none), [1, 2, 3, 4], [5]) := by
  have h := C7_read_fills (fsOf [("a", [1, 2, 3]), ("b", []), ("c", [4, 5])]) 8
    (NewChunkReader { pending := ["a", "b", "c"], closed := true }) [0, 0, 0, 0]
    ⟨rfl, by decide, by decide⟩ (by decide) (by decide)
  exact h

/-- C10 (end-of-stream is sticky), evaluated where the code breaks it: a
reader over the closed sequence `["a"]`, the file holding one byte, returns
`(1, end-of-stream)` for a buffer of two bytes; the next `Read`, with a buffer
of one byte, returns `(0, file already closed)`. -/
theorem C10_eof_not_sticky :
    ((NewChunkReader { pending := ["a"], closed := true }).Read (fsOf [("a", [1])]) 3 [0, 0]).map
      (fun r => (r.1, (r.2.2.Read (fsOf [("a", [1])]) 3 [0]).map (fun x => x.1))) =
    Except.ok ((1, some Err.eof), Except.ok (0, some Err.errClosed)) := by
  decide

/-- `Close` on a writer that was given an open channel: after any successful
`Write` calls it returns nil, appends the current chunk's identifier to
`FilePaths()`, and leaves the event channel closed with that identifier as the
last event, after what the channel held before and the identifiers of the
earlier chunks; the current chunk is the open file, numbered by the chunks
finished so far.  Without any `Write` no byte has been written to the chunk
and its file holds what the storage held there. -/
theorem Close_on_open_channel (pfx : String) (M : Int) (ch : Chan) (fs0 : FS)
    (bs : List (List Byte)) (sw : ChunkWriter) (fs : FS) (hch : ch.closed = false)
    (hw : writerFrom pfx M ch fs0 bs = some (sw, fs)) :
    Except.map (fun r => (r.1, r.2.FilePaths, r.2.chunksWritten)) sw.Close =
      Except.ok (none, sw.FilePaths ++ [sw.curChunkPath],
        some { sent := ch.sent ++ sw.FilePaths ++ [sw.curChunkPath], closed := true }) ∧
    sw.chunksWritten = some { sent := ch.sent ++ sw.FilePaths, closed := false } ∧
    sw.curChunkFile.map (fun f => (f.path, f.closed)) = some (sw.curChunkPath, false) ∧
    sw.curChunkPath = chunkPathOf pfx sw.FilePaths.length ∧
    (bs = [] → sw.FilePaths = [] ∧ sw.curChunkSize = 0 ∧
      sw.curChunkFile = some { path := chunkPathOf pfx 0, off := 0, closed := false } ∧
      fs (chunkPathOf pfx 0) = some ((fs0 (chunkPathOf pfx 0)).getD [])) := by
  have hi := WInv_writerFrom hch hw
  obtain ⟨f, c, hf, hc, hco, hcs, hclose⟩ := Close_of_WInv hi
  obtain ⟨g, hg, hgo, hgp⟩ := hi.file
  refine ⟨?_, ?_, ?_, hi.cur, ?_⟩
  · simp only [hclose, Except.map, ChunkWriter.FilePaths, hcs]
  · rw [hc]
    obtain ⟨s, cl⟩ := c
    simp only at hco hcs
    simp [hco, hcs, ChunkWriter.FilePaths]
  · simp [hg, hgo, hgp]
  · intro hbs
    subst hbs
    obtain ⟨sw0, fs1, h0, h1⟩ := writerFrom_some hw
    rw [NewChunkWriter_ok] at h0
    simp only [ChunkWriter.writeAll, Option.some.injEq, Prod.mk.injEq] at h1
    simp only [Except.ok.injEq, Prod.mk.injEq, true_and] at h0
    obtain ⟨rfl, rfl⟩ := h1
    obtain ⟨rfl, rfl⟩ := h0
    simp [ChunkWriter.FilePaths]

/-- C8 (Close finalizes the current chunk even when it is empty), evaluated
where the code breaks it.  A writer made with a nil channel, which `chunkDone`
allows for (two `Write` calls across a chunk boundary finish `p_000.bin`),
panics in `Close` on the deferred `close` of the nil channel, right after
`NewChunkWriter` as well as after the writes, where the claim has `Close`
append the current chunk and return.  On an open channel the same `Close`
returns with `FilePaths()` of length 1 and the channel closed. -/
theorem C8_close_panics_on_nil_channel :
    Except.map (fun r => r.1.FilePaths)
      (callsFromNew "p" 4 none emptyFS [Call.write [1, 2, 3], Call.write [4, 5]]) =
      Except.ok ["p_000.bin"] ∧
    Except.map (fun r => r.1.FilePaths) (callsFromNew "p" 4 none emptyFS [Call.close]) =
      Except.error Panic.closeOfNilChannel ∧
    Except.map (fun r => r.1.FilePaths)
      (callsFromNew "p" 4 none emptyFS [Call.write [1, 2, 3], Call.write [4, 5], Call.close]) =
      Except.error Panic.closeOfNilChannel ∧
    Except.map (fun r => (r.1.FilePaths, r.1.chunksWritten))
      (callsFromNew "p" 4 (some { sent := [], closed := false }) emptyFS [Call.close]) =
      Except.ok (["p_000.bin"], some { sent := ["p_000.bin"], closed := true }) := by
  decide

/-- C9 (chunk identifiers are indexed contiguously from 0).  In every state a
writer made by `NewChunkWriter(prefix, M, ch)` reaches by `Write` and `Close`
calls, the `k`-th finalized identifier is `prefix`, `_`, the index `k` in
decimal zero-padded to width three (`%03d`), and `.bin`; the finalized identifiers are
pairwise distinct; and while the current file is open the current chunk's
identifier carries the number of chunks finished before it was opened. -/
theorem C9_paths_indexed (pfx : String) (M : Int) (ch : Option Chan) (fs0 fs1 fs : FS)
    (e : Option Err) (sw0 sw : ChunkWriter) (cs : List Call)
    (h0 : NewChunkWriter pfx M ch fs0 = Except.ok (e, sw0, fs1))
    (hc : sw0.calls fs1 cs = Except.ok (sw, fs)) :
    sw.FilePaths = (List.range sw.FilePaths.length).map (chunkPathOf pfx) ∧
    (∀ k, k < sw.FilePaths.length → sw.FilePaths[k]? = some (chunkPathOf pfx k)) ∧
    sw.FilePaths.Nodup ∧
    (∀ f, sw.curChunkFile = some f → f.closed = false →
      sw.curChunkPath = chunkPathOf pfx sw.FilePaths.length) := by
  have hi := PathInv_calls cs (PathInv_new h0) hc
  have hp : sw.FilePaths = (List.range sw.FilePaths.length).map (chunkPathOf pfx) := hi.paths
  refine ⟨hp, ?_, ?_, ?_⟩
  · intro k hk
    rw [hp, List.getElem?_map, List.getElem?_range hk]
    rfl
  · rw [hp]
    exact (List.nodup_range _).map (fun a b hab => chunkPathOf_injective pfx hab)
  · intro f hf hfo
    obtain ⟨g, hg, hcur⟩ := hi.file
    rw [hf] at hg
    simp only [Option.some.injEq] at hg
    exact hcur (hg ▸ hfo)

theorem C9_paths_indexed_witness :
    NewChunkWriter "p" 4 (some { sent := [], closed := false }) emptyFS =
      Except.ok (sampleNew.1, sampleNew.2.1, sampleNew.2.2) ∧
    sampleNew.2.1.calls sampleNew.2.2 sampleCallList = Except.ok (sampleCalls.1, sampleCalls.2) ∧
    sampleCalls.1.FilePaths = (List.range 2).map (chunkPathOf "p") ∧
    sampleCalls.1.FilePaths.Nodup :=
  have h := C9_paths_indexed "p" 4 (some { sent := [], closed := false }) emptyFS sampleNew.2.2
    sampleCalls.2 sampleNew.1 sampleNew.2.1 sampleCalls.1 sampleCallList rfl rfl
  ⟨rfl, rfl, h.1, h.2.2.1⟩

end Streamy
